import Mathlib

/-!
# Verification of `smartSerialize` (bjfield/smart-serialize-js)

Shallow embedding of `src/unnamed/part_001` (`index.js`, function
`smartSerialize`) and proofs about the claims of the specification.

Modelling choices:

* JavaScript values are modelled by the inductive type `JSVal`.  Values with
  JavaScript object identity (arrays, plain objects, `Date`, `Error`, `RegExp`)
  carry an `id : Nat` tag standing for their allocation identity; the `WeakSet`
  `seen` is modelled as the list of ids added so far.  A cyclic or shared
  structure is represented by a finite tree in which a re-occurrence of the same
  instance repeats its id (the algorithm never inspects the contents of a value
  whose id is already in `seen`, so any finite unfolding with the right ids is
  observationally equal to the cyclic graph).
* The platform string conversions (`String(number)`, `Date.toISOString`,
  `Error.toString`, `RegExp.toString`) are opaque per the specification; the
  model carries their resulting text in the corresponding constructor.
* JavaScript's dynamically typed `size` variable is modelled by `SizeCtr`:
  it starts as a number and, because of `size += value.toString()` in
  `measureSize`, can become a string; `+=` then concatenates, and `>` compares
  via the platform's string-to-number coercion (`jsToNumber`).
* `maxDepth` and `maxSize` are `Option Nat`, `none` standing for `Infinity`
  (the specification restricts both to non-negative numbers or `+Infinity`).
* The state record carries a ghost field `trace` recording every enclosure
  marker handed to `render`; it influences nothing and exists only to state
  the balance claim about emitted markers.
-/

/-- The value variants of the data model (§3 of the spec), as distinguished by
the JavaScript implementation. `vnum` carries the text `String(value)`,
`vdate` the text of `toISOString()`, `verror`/`vregexp` the text of
`toString()`, and `vfunc` the function's `name`. -/
inductive JSVal where
  | vnull
  | vbool (b : Bool)
  | vnum (t : String)
  | vstr (s : String)
  | vdate (id : Nat) (iso : String)
  | verror (id : Nat) (text : String)
  | vregexp (id : Nat) (text : String)
  | vfunc (name : String)
  | varr (id : Nat) (elems : List JSVal)
  | vobj (id : Nat) (fields : List (String × JSVal))

/-- The six enclosure-marker sentinels (`LEFT_BRACKET` … `BRACES` in the
source, created there as `Symbol`s so that they cannot collide with string
data). -/
inductive Enc where
  | lbracket
  | rbracket
  | brackets
  | lbrace
  | rbrace
  | braces
deriving Repr, DecidableEq

/-- `getEnclosure` from the source. -/
def getEnclosure : Enc → String
  | .lbracket => "["
  | .rbracket => "]"
  | .brackets => "[]"
  | .lbrace => "\x7b"
  | .rbrace => "\x7d"
  | .braces => "\x7b\x7d"

/-- The dynamically typed `size` variable: a JavaScript number (always a
non-negative integer while numeric) or, after `size += value.toString()`
ran for an `Error`/`RegExp`, a string. -/
inductive SizeCtr where
  | num (n : Nat)
  | str (s : String)
deriving Repr, DecidableEq

/-- `size += k` for a number `k` (string concatenation when `size` is a
string, as in JavaScript). -/
def SizeCtr.addNum : SizeCtr → Nat → SizeCtr
  | .num a, k => .num (a + k)
  | .str s, k => .str (s ++ Nat.repr k)

/-- `size += t` for a string `t` (JavaScript coerces a numeric `size` to its
decimal text and concatenates). -/
def SizeCtr.addStr : SizeCtr → String → SizeCtr
  | .num a, t => .str (Nat.repr a ++ t)
  | .str s, t => .str (s ++ t)

/-- Models the platform's string-to-number coercion (`ToNumber`) on the
fragment reachable here: an optional sign, digits, an optional fractional
part and an optional exponent; anything else is `NaN` (`none`).  The
empty string coerces to `0`. -/
def jsToNumber (s : String) : Option ℚ :=
  if s = "" then some 0 else
  let chars := s.data
  let (sign, rest) : ℚ × List Char :=
    match chars with
    | '-' :: r => (-1, r)
    | '+' :: r => (1, r)
    | r => (1, r)
  let intPart := rest.takeWhile Char.isDigit
  let rest1 := rest.dropWhile Char.isDigit
  let (fracPart, rest2) : List Char × List Char :=
    match rest1 with
    | '.' :: r => (r.takeWhile Char.isDigit, r.dropWhile Char.isDigit)
    | r => ([], r)
  let (expOk, expSign, expDigits, rest3) : Bool × Int × List Char × List Char :=
    match rest2 with
    | 'e' :: '-' :: r => (true, -1, r.takeWhile Char.isDigit, r.dropWhile Char.isDigit)
    | 'e' :: '+' :: r => (true, 1, r.takeWhile Char.isDigit, r.dropWhile Char.isDigit)
    | 'e' :: r => (true, 1, r.takeWhile Char.isDigit, r.dropWhile Char.isDigit)
    | 'E' :: '-' :: r => (true, -1, r.takeWhile Char.isDigit, r.dropWhile Char.isDigit)
    | 'E' :: '+' :: r => (true, 1, r.takeWhile Char.isDigit, r.dropWhile Char.isDigit)
    | 'E' :: r => (true, 1, r.takeWhile Char.isDigit, r.dropWhile Char.isDigit)
    | r => (false, 1, ['0'], r)
  if rest3 ≠ [] then none
  else if intPart = [] ∧ fracPart = [] then none
  else if expOk ∧ expDigits = [] then none
  else
    let digitsVal : List Char → ℕ := fun l => l.foldl (fun acc c => 10 * acc + (c.toNat - 48)) 0
    let ip : ℚ := digitsVal intPart
    let fp : ℚ := (digitsVal fracPart : ℚ) / ((10 : ℚ) ^ fracPart.length)
    let ex : ℤ := expSign * (digitsVal expDigits : ℤ)
    some (sign * (ip + fp) * (10 : ℚ) ^ ex)

/-- `size > maxSize`, with `maxSize = none` standing for `Infinity`.
A numeric comparison against `Infinity` is always false; a string `size`
is coerced with `jsToNumber`, and a `NaN` comparison is false. -/
def sizeGt (size : SizeCtr) (maxSize : Option Nat) : Bool :=
  match maxSize with
  | none => false
  | some m =>
    match size with
    | .num n => decide (n > m)
    | .str s =>
      match jsToNumber s with
      | none => false
      | some q => decide (q > (m : ℚ))

/-- The pair of mutable variables `size` and `sizeLimitReached`. -/
structure SzSt where
  size : SizeCtr
  limit : Bool
deriving Repr, DecidableEq

/-- The trailing `if (size > maxSize) sizeLimitReached = true` of both
`measureSize` and `addSize`: the flag is only ever set, never cleared. -/
def checkLimit (maxSize : Option Nat) (sz : SzSt) : SzSt :=
  if sizeGt sz.size maxSize then { sz with limit := true } else sz

/-- The size-estimation switch of `measureSize` (source lines 20–29), acting
on the counter.  Note the `Error`/`RegExp` branch: the source reads
`size += value.toString()` — the string itself, not its length — so the
counter becomes a string.  Containers and any unlisted value add nothing. -/
def measureSize (value : JSVal) (size : SizeCtr) : SizeCtr :=
  match value with
  | .vnull => size.addNum 4
  | .vbool true => size.addNum 4
  | .vbool false => size.addNum 5
  | .vstr s => size.addNum (s.length + 2)
  | .vnum t => size.addNum t.length
  | .vdate _ _ => size.addNum 26
  | .verror _ t => size.addStr t
  | .vregexp _ t => size.addStr t
  | .vfunc name => size.addNum (13 + name.length)
  | .varr _ _ => size
  | .vobj _ _ => size

/-- `measureSize` including its limit check. -/
def measureStep (maxSize : Option Nat) (value : JSVal) (sz : SzSt) : SzSt :=
  checkLimit maxSize { sz with size := measureSize value sz.size }

/-- `addSize` from the source. -/
def addSizeStep (maxSize : Option Nat) (k : Nat) (sz : SzSt) : SzSt :=
  checkLimit maxSize { sz with size := sz.size.addNum k }

/-- The character class of `ESCAPE_REGEXP`: ASCII control characters 0–31,
the double quote, and the backslash. -/
def needsEscape (c : Char) : Bool :=
  c.toNat ≤ 0x1f || c = '"' || c = '\\'

/-- One lowercase hexadecimal digit. -/
def hexDigit (n : Nat) : Char :=
  if n < 10 then Char.ofNat (48 + n) else Char.ofNat (87 + n)

/-- The `'\u' + ('0000' + a.charCodeAt(0).toString(16)).slice(-4)` fallback of
`escape`: the code point as four padded hexadecimal digits (all call sites
have code points below 0x20, where this agrees with the slice-based
padding of the source). -/
def hex4 (n : Nat) : List Char :=
  [hexDigit (n / 4096 % 16), hexDigit (n / 256 % 16), hexDigit (n / 16 % 16), hexDigit (n % 16)]

/-- The replacement for one matched character: the seven named two-character
escapes, else the `\u00XX` form. -/
def escapeChar (a : Char) : List Char :=
  if a = '\x08' then ['\\', 'b']
  else if a = '\t' then ['\\', 't']
  else if a = '\n' then ['\\', 'n']
  else if a = '\x0c' then ['\\', 'f']
  else if a = '\r' then ['\\', 'r']
  else if a = '"' then ['\\', '"']
  else if a = '\\' then ['\\', '\\']
  else '\\' :: 'u' :: hex4 a.toNat

/-- `value.replaceAll(ESCAPE_REGEXP, …)` as a character-wise map. -/
def escapeList : List Char → List Char
  | [] => []
  | c :: rest => (if needsEscape c then escapeChar c else [c]) ++ escapeList rest

/-- `escape` from the source: test the string for problem characters, and if
any are present replace each of them. -/
def escape (value : String) : String :=
  if value.data.any needsEscape then String.mk (escapeList value.data) else value

/-- The values that reach `render` in the source: an enclosure marker, or a
leaf that is a string (including the pre-converted date / error / regexp /
function / circular-reference texts), `null`, a boolean, or a number. -/
inductive RArg where
  | enc (e : Enc)
  | rnull
  | rbool (b : Bool)
  | rnum (t : String)
  | rstr (s : String)
deriving Repr, DecidableEq

/-- Truthiness of the `index` frame component (`undefined` and `0` are
falsy). -/
def idxTruthy : Option Nat → Bool
  | none => false
  | some i => decide (i ≠ 0)

/-- Truthiness of the `key` frame component (`null` and the empty string are
falsy). -/
def keyTruthy : Option String → Bool
  | none => false
  | some k => !k.isEmpty

/-- The value token appended by `render`: enclosure text, quoted-and-escaped
string, or the `String(value)` form of a primitive. -/
def rargText : RArg → String
  | .enc e => getEnclosure e
  | .rstr s => "\"" ++ escape s ++ "\""
  | .rnull => "null"
  | .rbool true => "true"
  | .rbool false => "false"
  | .rnum t => t

/-- `render` from the source (lines 62–72): optional comma, optional
`"key":` prefix, the value token; the fragment is prepended to the output. -/
def render (key : Option String) (value : RArg) (index : Option Nat) (output : String) : String :=
  (if idxTruthy index then "," else "") ++
    (match key with
     | some k => if !k.isEmpty then "\"" ++ k ++ "\":" else ""
     | none => "") ++
    rargText value ++ output

/-- A frame payload: a value or an enclosure-marker sentinel. -/
inductive StackVal where
  | val (v : JSVal)
  | enc (e : Enc)

/-- A unit of pending work: `[key, value, index, depth]` in the source. -/
structure Frame where
  key : Option String
  payload : StackVal
  index : Option Nat
  depth : Nat

/-- The mutable state of one `smartSerialize` call.  `trace` is a ghost
field listing every enclosure marker passed to `render` (most recent
first); it affects nothing. -/
structure SState where
  seen : List Nat
  size : SizeCtr
  limit : Bool
  output : String
  stack : List Frame
  trace : List Enc

/-- `seen.has(value)`: true exactly for an object-typed value whose identity
was added.  Primitives and functions are never in the `WeakSet`. -/
def seenHas (seen : List Nat) : JSVal → Bool
  | .vdate id _ => seen.contains id
  | .verror id _ => seen.contains id
  | .vregexp id _ => seen.contains id
  | .varr id _ => seen.contains id
  | .vobj id _ => seen.contains id
  | _ => false

/-- `depth < maxDepth` with `none` as `Infinity`. -/
def depthLt (depth : Nat) : Option Nat → Bool
  | none => true
  | some m => decide (depth < m)

/-- The array-child loop (source lines 121–124): measure each element, and
push it only when the limit flag is still unset at that point; the
returned frames are in push order. -/
def pushArrChildren (maxSize : Option Nat) (elems : List JSVal) (i depth : Nat) (sz : SzSt) :
    SzSt × List Frame :=
  match elems with
  | [] => (sz, [])
  | v :: rest =>
    let sz1 := measureStep maxSize v sz
    let res := pushArrChildren maxSize rest (i + 1) depth sz1
    (res.1, (if sz1.limit then [] else [⟨none, .val v, some i, depth⟩]) ++ res.2)

/-- The object-child loop (source lines 139–143): charge `key.length + 3`,
then (still within budget) measure the value, then (still within budget)
push the child frame. -/
def pushObjChildren (maxSize : Option Nat) (fields : List (String × JSVal)) (i depth : Nat)
    (sz : SzSt) : SzSt × List Frame :=
  match fields with
  | [] => (sz, [])
  | (k, v) :: rest =>
    let sz1 := addSizeStep maxSize (k.length + 3) sz
    let sz2 := if sz1.limit then sz1 else measureStep maxSize v sz1
    let res := pushObjChildren maxSize rest (i + 1) depth sz2
    (res.1, (if sz2.limit then [] else [⟨some k, .val v, some i, depth⟩]) ++ res.2)

/-- `addSize` acting on the whole state. -/
def addSizeSt (maxSize : Option Nat) (k : Nat) (st : SState) : SState :=
  let sz := addSizeStep maxSize k ⟨st.size, st.limit⟩
  { st with size := sz.size, limit := sz.limit }

/-- One `iterateStack()` call (source lines 108–155).  On an empty stack
(never reached by the source's loops) it is the identity. -/
def iterateStack (maxDepth maxSize : Option Nat) (st : SState) : SState :=
  match st.stack with
  | [] => st
  | fr :: rest =>
    let st0 := { st with stack := rest }
    match fr.payload with
    | .enc e =>
      -- Symbols fall through to the final `else`: render, then account the comma.
      let st1 := { st0 with output := render fr.key (.enc e) fr.index st0.output, trace := e :: st0.trace }
      if idxTruthy fr.index then addSizeSt maxSize 1 st1 else st1
    | .val v =>
      if seenHas st.seen v then
        let st1 := addSizeSt maxSize 20 st0
        if st1.limit then st1
        else { st1 with output := render fr.key (.rstr "[circular reference]") fr.index st1.output }
      else
        match v with
        | .vfunc name =>
          { st0 with output := render fr.key (.rstr ("[function " ++ (if name.isEmpty then "(anonymous)" else name) ++ "]")) fr.index st0.output }
        | .varr id elems =>
          let st1 := { st0 with seen := id :: st0.seen }
          let sz1 := addSizeStep maxSize 2 ⟨st1.size, st1.limit⟩
          if !sz1.limit && depthLt fr.depth maxDepth then
            let res := pushArrChildren maxSize elems 0 (fr.depth + 1) sz1
            let pushed : List Frame :=
              ⟨fr.key, .enc .lbracket, fr.index, fr.depth⟩ :: res.2 ++
                [⟨none, .enc .rbracket, none, fr.depth⟩]
            { st1 with size := res.1.size, limit := res.1.limit, stack := pushed.reverse ++ rest }
          else
            { st1 with size := sz1.size, limit := sz1.limit, output := render fr.key (.enc .brackets) fr.index st1.output, trace := .brackets :: st1.trace }
        | .vdate id iso =>
          { st0 with seen := id :: st0.seen, output := render fr.key (.rstr iso) fr.index st0.output }
        | .verror id text =>
          { st0 with seen := id :: st0.seen, output := render fr.key (.rstr text) fr.index st0.output }
        | .vregexp id text =>
          { st0 with seen := id :: st0.seen, output := render fr.key (.rstr text) fr.index st0.output }
        | .vobj id fields =>
          let st1 := { st0 with seen := id :: st0.seen }
          if fields.isEmpty then st1
          else
            let sz1 := addSizeStep maxSize 2 ⟨st1.size, st1.limit⟩
            if !sz1.limit && depthLt fr.depth maxDepth then
              let res := pushObjChildren maxSize fields 0 (fr.depth + 1) sz1
              let pushed : List Frame :=
                ⟨fr.key, .enc .lbrace, fr.index, fr.depth⟩ :: res.2 ++
                  [⟨none, .enc .rbrace, none, fr.depth⟩]
              { st1 with size := res.1.size, limit := res.1.limit, stack := pushed.reverse ++ rest }
            else
              { st1 with size := sz1.size, limit := sz1.limit, output := render fr.key (.enc .braces) fr.index st1.output, trace := .braces :: st1.trace }
        | .vnull =>
          let st1 := { st0 with output := render fr.key .rnull fr.index st0.output }
          if idxTruthy fr.index then addSizeSt maxSize 1 st1 else st1
        | .vbool b =>
          let st1 := { st0 with output := render fr.key (.rbool b) fr.index st0.output }
          if idxTruthy fr.index then addSizeSt maxSize 1 st1 else st1
        | .vnum t =>
          let st1 := { st0 with output := render fr.key (.rnum t) fr.index st0.output }
          if idxTruthy fr.index then addSizeSt maxSize 1 st1 else st1
        | .vstr s =>
          let st1 := { st0 with output := render fr.key (.rstr s) fr.index st0.output }
          if idxTruthy fr.index then addSizeSt maxSize 1 st1 else st1

mutual
/-- Weight of a value for termination: containers weigh strictly more than
their children plus the two sentinel frames their expansion pushes. -/
def weight : JSVal → Nat
  | .varr _ es => 3 + weightList es
  | .vobj _ fs => 3 + weightFields fs
  | _ => 1

/-- Sum of the weights of a list of values. -/
def weightList : List JSVal → Nat
  | [] => 0
  | v :: rest => weight v + weightList rest

/-- Sum of the weights of the values of a field list. -/
def weightFields : List (String × JSVal) → Nat
  | [] => 0
  | (_, v) :: rest => weight v + weightFields rest
end

/-- Weight of one frame. -/
def frameWeight (f : Frame) : Nat :=
  match f.payload with
  | .val v => weight v
  | .enc _ => 1

/-- Weight of a stack. -/
def stackWeight (l : List Frame) : Nat :=
  (l.map frameWeight).sum

theorem weight_pos (v : JSVal) : 1 ≤ weight v := by
  cases v <;> simp [weight] <;> omega

theorem stackWeight_nil : stackWeight [] = 0 := rfl

theorem stackWeight_cons (f : Frame) (l : List Frame) :
    stackWeight (f :: l) = frameWeight f + stackWeight l := by
  simp [stackWeight]

theorem stackWeight_append (a b : List Frame) :
    stackWeight (a ++ b) = stackWeight a + stackWeight b := by
  simp [stackWeight]

theorem stackWeight_reverse (a : List Frame) :
    stackWeight a.reverse = stackWeight a := by
  simp [stackWeight, List.sum_reverse]

theorem pushArrChildren_weight (maxSize : Option Nat) (elems : List JSVal) :
    ∀ i depth sz, stackWeight (pushArrChildren maxSize elems i depth sz).2 ≤ weightList elems := by
  induction elems with
  | nil => intro i depth sz; simp [pushArrChildren, stackWeight_nil, weightList]
  | cons v rest ih =>
    intro i depth sz
    have h := ih (i + 1) depth (measureStep maxSize v sz)
    have hv := weight_pos v
    simp only [pushArrChildren, weightList]
    split
    · simp only [List.nil_append]
      omega
    · simp only [List.singleton_append, stackWeight_cons, frameWeight]
      omega

theorem pushObjChildren_weight (maxSize : Option Nat) (fields : List (String × JSVal)) :
    ∀ i depth sz, stackWeight (pushObjChildren maxSize fields i depth sz).2 ≤ weightFields fields := by
  induction fields with
  | nil => intro i depth sz; simp [pushObjChildren, stackWeight_nil, weightFields]
  | cons kv rest ih =>
    obtain ⟨k, v⟩ := kv
    intro i depth sz
    have hv := weight_pos v
    simp only [pushObjChildren, weightFields]
    set sz2 := if (addSizeStep maxSize (k.length + 3) sz).limit = true then
        addSizeStep maxSize (k.length + 3) sz
      else measureStep maxSize v (addSizeStep maxSize (k.length + 3) sz) with hsz2
    have h := ih (i + 1) depth sz2
    split
    · simp only [List.nil_append]
      omega
    · simp only [List.singleton_append, stackWeight_cons, frameWeight]
      omega

theorem iterate_weight_lt (maxDepth maxSize : Option Nat) (st : SState)
    (h : st.stack ≠ []) :
    stackWeight (iterateStack maxDepth maxSize st).stack < stackWeight st.stack := by
  obtain ⟨seen, size, limit, output, stack, trace⟩ := st
  cases stack with
  | nil => simp at h
  | cons fr rest =>
    obtain ⟨key, payload, idx, depth⟩ := fr
    cases payload with
    | enc e =>
      simp [iterateStack, addSizeSt, apply_ite SState.stack, stackWeight_cons,
        frameWeight]
    | val v =>
      have hv := weight_pos v
      cases v with
      | vnull =>
        simp [iterateStack, seenHas, addSizeSt, apply_ite SState.stack, stackWeight_cons,
          frameWeight, weight]
      | vbool b =>
        simp [iterateStack, seenHas, addSizeSt, apply_ite SState.stack, stackWeight_cons,
          frameWeight, weight]
      | vnum t =>
        simp [iterateStack, seenHas, addSizeSt, apply_ite SState.stack, stackWeight_cons,
          frameWeight, weight]
      | vstr s =>
        simp [iterateStack, seenHas, addSizeSt, apply_ite SState.stack, stackWeight_cons,
          frameWeight, weight]
      | vfunc name =>
        simp [iterateStack, seenHas, stackWeight_cons, frameWeight, weight]
      | vdate id iso =>
        simp only [iterateStack]
        split
        · simp [addSizeSt, apply_ite SState.stack, stackWeight_cons, frameWeight,
            weight]
        · simp [stackWeight_cons, frameWeight, weight]
      | verror id text =>
        simp only [iterateStack]
        split
        · simp [addSizeSt, apply_ite SState.stack, stackWeight_cons, frameWeight,
            weight]
        · simp [stackWeight_cons, frameWeight, weight]
      | vregexp id text =>
        simp only [iterateStack]
        split
        · simp [addSizeSt, apply_ite SState.stack, stackWeight_cons, frameWeight,
            weight]
        · simp [stackWeight_cons, frameWeight, weight]
      | varr id elems =>
        simp only [iterateStack]
        split
        · simp [addSizeSt, apply_ite SState.stack, stackWeight_cons, frameWeight,
            weight]
        · split
          · have hw := pushArrChildren_weight maxSize elems 0 (depth + 1)
              (addSizeStep maxSize 2 ⟨size, limit⟩)
            simp only [stackWeight_cons, stackWeight_append, stackWeight_reverse,
              stackWeight_nil, frameWeight, weight]
            omega
          · simp [stackWeight_cons, frameWeight, weight]
      | vobj id fields =>
        simp only [iterateStack]
        split
        · simp [addSizeSt, apply_ite SState.stack, stackWeight_cons, frameWeight,
            weight]
        · split
          · simp [stackWeight_cons, frameWeight, weight]
          · split
            · have hw := pushObjChildren_weight maxSize fields 0 (depth + 1)
                (addSizeStep maxSize 2 ⟨size, limit⟩)
              simp only [stackWeight_cons, stackWeight_append, stackWeight_reverse,
                stackWeight_nil, frameWeight, weight]
              omega
            · simp [stackWeight_cons, frameWeight, weight]

/-- The driver loop with explicit fuel; `runFuel BATCH_SIZE` is also one
batch of the callback mode (`while (stack.length && i < BATCH_SIZE)`). -/
def runFuel (maxDepth maxSize : Option Nat) : Nat → SState → SState
  | 0, st => st
  | n + 1, st =>
    match st.stack with
    | [] => st
    | _ :: _ => runFuel maxDepth maxSize n (iterateStack maxDepth maxSize st)

theorem runFuel_succ (maxDepth maxSize : Option Nat) (n : Nat) (st : SState) :
    runFuel maxDepth maxSize (n + 1) st =
      match st.stack with
      | [] => st
      | _ :: _ => runFuel maxDepth maxSize n (iterateStack maxDepth maxSize st) := by
  rw [runFuel]

theorem runFuel_succ_nil (maxDepth maxSize : Option Nat) (n : Nat) (st : SState)
    (h : st.stack = []) : runFuel maxDepth maxSize (n + 1) st = st := by
  rw [runFuel_succ, h]

theorem runFuel_succ_cons (maxDepth maxSize : Option Nat) (n : Nat) (st : SState)
    (h : st.stack ≠ []) :
    runFuel maxDepth maxSize (n + 1) st =
      runFuel maxDepth maxSize n (iterateStack maxDepth maxSize st) := by
  rw [runFuel_succ]
  cases hs : st.stack with
  | nil => exact absurd hs h
  | cons a b => simp

/-- The synchronous driver loop (`while (stack.length) iterateStack()`),
with fuel chosen large enough to always drain the stack. -/
def runStack (maxDepth maxSize : Option Nat) (st : SState) : SState :=
  runFuel maxDepth maxSize (stackWeight st.stack + 1) st

/-- The initial state: `stack = [[null, object, undefined, 0]]`, empty seen
set, zero size, unset flag, empty output. -/
def initState (object : JSVal) : SState :=
  ⟨[], .num 0, false, "", [⟨none, .val object, none, 0⟩], []⟩

/-- `smartSerialize(object, maxDepth, maxSize)` without a callback. -/
def smartSerialize (object : JSVal) (maxDepth maxSize : Option Nat) : String :=
  (runStack maxDepth maxSize (initState object)).output

theorem runFuel_congr (maxDepth maxSize : Option Nat) :
    ∀ n m st, stackWeight st.stack < n → stackWeight st.stack < m →
      runFuel maxDepth maxSize n st = runFuel maxDepth maxSize m st := by
  intro n
  induction n with
  | zero => intro m st h; omega
  | succ n ih =>
    intro m st h1 h2
    cases m with
    | zero => omega
    | succ m =>
      by_cases he : st.stack = []
      · rw [runFuel_succ_nil _ _ _ _ he, runFuel_succ_nil _ _ _ _ he]
      · rw [runFuel_succ_cons _ _ _ _ he, runFuel_succ_cons _ _ _ _ he]
        have hlt := iterate_weight_lt maxDepth maxSize st he
        exact ih m (iterateStack maxDepth maxSize st) (by omega) (by omega)

theorem runStack_nil (maxDepth maxSize : Option Nat) (st : SState) (h : st.stack = []) :
    runStack maxDepth maxSize st = st := by
  rw [runStack, runFuel_succ_nil _ _ _ _ h]

theorem runStack_cons (maxDepth maxSize : Option Nat) (st : SState) (h : st.stack ≠ []) :
    runStack maxDepth maxSize st =
      runStack maxDepth maxSize (iterateStack maxDepth maxSize st) := by
  have hlt := iterate_weight_lt maxDepth maxSize st h
  rw [runStack, runStack, runFuel_succ_cons _ _ _ _ h]
  exact runFuel_congr maxDepth maxSize _ _ _ (by omega) (by omega)

theorem runStack_stack_nil (maxDepth maxSize : Option Nat) (st : SState) :
    (runStack maxDepth maxSize st).stack = [] := by
  generalize hw : stackWeight st.stack = w
  induction w using Nat.strong_induction_on generalizing st with
  | _ w ih =>
    by_cases he : st.stack = []
    · rw [runStack_nil _ _ _ he]; exact he
    · rw [runStack_cons _ _ _ he]
      exact ih _ (hw ▸ iterate_weight_lt maxDepth maxSize st he) _ rfl

theorem runFuel_weight_le (maxDepth maxSize : Option Nat) :
    ∀ n st, stackWeight (runFuel maxDepth maxSize n st).stack ≤ stackWeight st.stack := by
  intro n
  induction n with
  | zero => intro st; simp [runFuel]
  | succ n ih =>
    intro st
    by_cases he : st.stack = []
    · rw [runFuel_succ_nil _ _ _ _ he]
    · rw [runFuel_succ_cons _ _ _ _ he]
      exact le_trans (ih _) (le_of_lt (iterate_weight_lt maxDepth maxSize st he))

/-- `BATCH_SIZE` from the source. -/
def BATCH_SIZE : Nat := 10000

/-- The repeated `setTimeout(callbackStack)` chain of the callback mode: run
batches of `BATCH_SIZE` frames until the stack drains, then deliver the
output (the argument eventually passed to the callback). -/
def callbackChainFuel (maxDepth maxSize : Option Nat) : Nat → SState → String
  | 0, st => st.output
  | n + 1, st =>
    match (runFuel maxDepth maxSize BATCH_SIZE st).stack with
    | [] => (runFuel maxDepth maxSize BATCH_SIZE st).output
    | _ :: _ => callbackChainFuel maxDepth maxSize n (runFuel maxDepth maxSize BATCH_SIZE st)

/-- The string eventually delivered to the callback. -/
def callbackDelivered (object : JSVal) (maxDepth maxSize : Option Nat) : String :=
  callbackChainFuel maxDepth maxSize (stackWeight (initState object).stack + 1)
    (initState object)

/-- `smartSerialize(object, maxDepth, maxSize, callback)`: the first batch
runs synchronously; the function then returns the output accumulated so
far (`return output`, source line 178).  The second component records
whether — and with what argument — the callback was invoked synchronously
during the call (it is when the first batch already drains the stack);
otherwise the remaining work is deferred via `setTimeout` and delivered
asynchronously (`callbackDelivered`). -/
def smartSerializeCb (object : JSVal) (maxDepth maxSize : Option Nat) : String × Option String :=
  match (runFuel maxDepth maxSize BATCH_SIZE (initState object)).stack with
  | [] => ((runFuel maxDepth maxSize BATCH_SIZE (initState object)).output,
      some (runFuel maxDepth maxSize BATCH_SIZE (initState object)).output)
  | _ :: _ => ((runFuel maxDepth maxSize BATCH_SIZE (initState object)).output, none)

/-- The identity tag of an object-typed value (`None` for primitives and
functions, which have no entry in the Identity Guard). -/
def idOf : JSVal → Option Nat
  | .vdate id _ => some id
  | .verror id _ => some id
  | .vregexp id _ => some id
  | .varr id _ => some id
  | .vobj id _ => some id
  | _ => none

/-- The size counter only ever accumulates `+=` operations: it is reachable
from the old value by number and string additions alone. -/
inductive SizeEvolves (s : SizeCtr) : SizeCtr → Prop
  | refl : SizeEvolves s s
  | addNum (t : SizeCtr) (k : Nat) : SizeEvolves s t → SizeEvolves s (t.addNum k)
  | addStr (t : SizeCtr) (u : String) : SizeEvolves s t → SizeEvolves s (t.addStr u)

theorem SizeEvolves.trans {a b c : SizeCtr} (h1 : SizeEvolves a b) (h2 : SizeEvolves b c) :
    SizeEvolves a c := by
  induction h2 with
  | refl => exact h1
  | addNum t k _ ih => exact .addNum _ _ ih
  | addStr t u _ ih => exact .addStr _ _ ih

/-- While the counter stays numeric, accumulation never decreases it. -/
theorem SizeEvolves.num_le {a b : Nat} (h : SizeEvolves (.num a) (.num b)) : a ≤ b := by
  generalize hy : SizeCtr.num b = y at h
  induction h generalizing b with
  | refl =>
    cases hy
    omega
  | addNum t k _ ih =>
    cases t with
    | num c =>
      simp only [SizeCtr.addNum, SizeCtr.num.injEq] at hy
      have := ih rfl
      omega
    | str u => simp [SizeCtr.addNum] at hy
  | addStr t u _ ih => cases t <;> simp [SizeCtr.addStr] at hy

theorem checkLimit_size (maxSize : Option Nat) (sz : SzSt) :
    (checkLimit maxSize sz).size = sz.size := by
  unfold checkLimit; split <;> rfl

theorem checkLimit_limit_mono (maxSize : Option Nat) (sz : SzSt) (h : sz.limit = true) :
    (checkLimit maxSize sz).limit = true := by
  unfold checkLimit; split <;> simp [h]

theorem measureStep_size (maxSize : Option Nat) (v : JSVal) (sz : SzSt) :
    (measureStep maxSize v sz).size = measureSize v sz.size := by
  unfold measureStep; rw [checkLimit_size]

theorem addSizeStep_size (maxSize : Option Nat) (k : Nat) (sz : SzSt) :
    (addSizeStep maxSize k sz).size = sz.size.addNum k := by
  unfold addSizeStep; rw [checkLimit_size]

theorem measureStep_limit_mono (maxSize : Option Nat) (v : JSVal) (sz : SzSt)
    (h : sz.limit = true) : (measureStep maxSize v sz).limit = true := by
  unfold measureStep; exact checkLimit_limit_mono _ _ h

theorem addSizeStep_limit_mono (maxSize : Option Nat) (k : Nat) (sz : SzSt)
    (h : sz.limit = true) : (addSizeStep maxSize k sz).limit = true := by
  unfold addSizeStep; exact checkLimit_limit_mono _ _ h

theorem measureSize_evolves (v : JSVal) (s : SizeCtr) : SizeEvolves s (measureSize v s) := by
  cases v with
  | vbool b => cases b <;> exact .addNum _ _ .refl
  | vnull => exact .addNum _ _ .refl
  | vstr t => exact .addNum _ _ .refl
  | vnum t => exact .addNum _ _ .refl
  | vdate id iso => exact .addNum _ _ .refl
  | verror id t => exact .addStr _ _ .refl
  | vregexp id t => exact .addStr _ _ .refl
  | vfunc n => exact .addNum _ _ .refl
  | varr id es => exact SizeEvolves.refl
  | vobj id fs => exact SizeEvolves.refl

theorem pushArrChildren_size_evolves (maxSize : Option Nat) (elems : List JSVal) :
    ∀ i depth sz, SizeEvolves sz.size (pushArrChildren maxSize elems i depth sz).1.size := by
  induction elems with
  | nil => intro i depth sz; exact SizeEvolves.refl
  | cons v rest ih =>
    intro i depth sz
    simp only [pushArrChildren]
    refine SizeEvolves.trans ?_ (ih (i + 1) depth (measureStep maxSize v sz))
    rw [measureStep_size]
    exact measureSize_evolves v sz.size

theorem pushObjChildren_size_evolves (maxSize : Option Nat) (fields : List (String × JSVal)) :
    ∀ i depth sz, SizeEvolves sz.size (pushObjChildren maxSize fields i depth sz).1.size := by
  induction fields with
  | nil => intro i depth sz; exact SizeEvolves.refl
  | cons kv rest ih =>
    obtain ⟨k, v⟩ := kv
    intro i depth sz
    simp only [pushObjChildren]
    set sz1 := addSizeStep maxSize (k.length + 3) sz with hsz1
    set sz2 := if sz1.limit = true then sz1 else measureStep maxSize v sz1 with hsz2
    refine SizeEvolves.trans ?_ (ih (i + 1) depth sz2)
    have h1 : SizeEvolves sz.size sz1.size := by
      rw [hsz1, addSizeStep_size]; exact .addNum _ _ .refl
    refine SizeEvolves.trans h1 ?_
    rw [hsz2]
    split
    · exact SizeEvolves.refl
    · rw [measureStep_size]; exact measureSize_evolves v sz1.size

theorem pushArrChildren_limit_mono (maxSize : Option Nat) (elems : List JSVal) :
    ∀ i depth sz, sz.limit = true → (pushArrChildren maxSize elems i depth sz).1.limit = true := by
  induction elems with
  | nil => intro i depth sz h; exact h
  | cons v rest ih =>
    intro i depth sz h
    simp only [pushArrChildren]
    exact ih (i + 1) depth _ (measureStep_limit_mono _ _ _ h)

theorem pushObjChildren_limit_mono (maxSize : Option Nat) (fields : List (String × JSVal)) :
    ∀ i depth sz, sz.limit = true → (pushObjChildren maxSize fields i depth sz).1.limit = true := by
  induction fields with
  | nil => intro i depth sz h; exact h
  | cons kv rest ih =>
    obtain ⟨k, v⟩ := kv
    intro i depth sz h
    simp only [pushObjChildren]
    have h1 := addSizeStep_limit_mono maxSize (k.length + 3) sz h
    refine ih (i + 1) depth _ ?_
    rw [if_pos h1]
    exact h1

theorem pushArrChildren_limit_frames (maxSize : Option Nat) (elems : List JSVal) :
    ∀ i depth sz, sz.limit = true → (pushArrChildren maxSize elems i depth sz).2 = [] := by
  induction elems with
  | nil => intro i depth sz h; rfl
  | cons v rest ih =>
    intro i depth sz h
    have h1 := measureStep_limit_mono maxSize v sz h
    simp only [pushArrChildren, h1, if_true, List.nil_append]
    exact ih (i + 1) depth _ h1

theorem pushObjChildren_limit_frames (maxSize : Option Nat) (fields : List (String × JSVal)) :
    ∀ i depth sz, sz.limit = true → (pushObjChildren maxSize fields i depth sz).2 = [] := by
  induction fields with
  | nil => intro i depth sz h; rfl
  | cons kv rest ih =>
    obtain ⟨k, v⟩ := kv
    intro i depth sz h
    have h1 := addSizeStep_limit_mono maxSize (k.length + 3) sz h
    have h2 : (if (addSizeStep maxSize (k.length + 3) sz).limit = true then
        addSizeStep maxSize (k.length + 3) sz
      else measureStep maxSize v (addSizeStep maxSize (k.length + 3) sz)).limit = true := by
      rw [if_pos h1]
      exact h1
    simp only [pushObjChildren, h2, if_true, List.nil_append]
    exact ih (i + 1) depth _ h2

theorem iterate_seen_eq (md ms : Option Nat) (seen : List Nat) (size : SizeCtr) (limit : Bool)
    (out : String) (tr : List Enc) (key : Option String) (idx : Option Nat) (depth : Nat)
    (v : JSVal) (rest : List Frame) (h : seenHas seen v = true) :
    iterateStack md ms ⟨seen, size, limit, out, ⟨key, .val v, idx, depth⟩ :: rest, tr⟩ =
      (if (addSizeStep ms 20 ⟨size, limit⟩).limit then
        ⟨seen, (addSizeStep ms 20 ⟨size, limit⟩).size, (addSizeStep ms 20 ⟨size, limit⟩).limit,
          out, rest, tr⟩
      else
        ⟨seen, (addSizeStep ms 20 ⟨size, limit⟩).size, (addSizeStep ms 20 ⟨size, limit⟩).limit,
          render key (.rstr "[circular reference]") idx out, rest, tr⟩) := by
  simp [iterateStack, h, addSizeSt]

theorem iterate_func_eq (md ms : Option Nat) (seen : List Nat) (size : SizeCtr) (limit : Bool)
    (out : String) (tr : List Enc) (key : Option String) (idx : Option Nat) (depth : Nat)
    (name : String) (rest : List Frame) :
    iterateStack md ms ⟨seen, size, limit, out, ⟨key, .val (.vfunc name), idx, depth⟩ :: rest, tr⟩ =
      ⟨seen, size, limit,
        render key (.rstr ("[function " ++ (if name.isEmpty then "(anonymous)" else name) ++ "]"))
          idx out, rest, tr⟩ := by
  simp [iterateStack, seenHas]

theorem iterate_date_eq (md ms : Option Nat) (seen : List Nat) (size : SizeCtr) (limit : Bool)
    (out : String) (tr : List Enc) (key : Option String) (idx : Option Nat) (depth : Nat)
    (id : Nat) (iso : String) (rest : List Frame) (h : seen.contains id = false) :
    iterateStack md ms ⟨seen, size, limit, out, ⟨key, .val (.vdate id iso), idx, depth⟩ :: rest, tr⟩ =
      ⟨id :: seen, size, limit, render key (.rstr iso) idx out, rest, tr⟩ := by
  have h2 : id ∉ seen := by simpa using h
  simp [iterateStack, seenHas, h2]

theorem iterate_error_eq (md ms : Option Nat) (seen : List Nat) (size : SizeCtr) (limit : Bool)
    (out : String) (tr : List Enc) (key : Option String) (idx : Option Nat) (depth : Nat)
    (id : Nat) (text : String) (rest : List Frame) (h : seen.contains id = false) :
    iterateStack md ms ⟨seen, size, limit, out, ⟨key, .val (.verror id text), idx, depth⟩ :: rest, tr⟩ =
      ⟨id :: seen, size, limit, render key (.rstr text) idx out, rest, tr⟩ := by
  have h2 : id ∉ seen := by simpa using h
  simp [iterateStack, seenHas, h2]

theorem iterate_regexp_eq (md ms : Option Nat) (seen : List Nat) (size : SizeCtr) (limit : Bool)
    (out : String) (tr : List Enc) (key : Option String) (idx : Option Nat) (depth : Nat)
    (id : Nat) (text : String) (rest : List Frame) (h : seen.contains id = false) :
    iterateStack md ms ⟨seen, size, limit, out, ⟨key, .val (.vregexp id text), idx, depth⟩ :: rest, tr⟩ =
      ⟨id :: seen, size, limit, render key (.rstr text) idx out, rest, tr⟩ := by
  have h2 : id ∉ seen := by simpa using h
  simp [iterateStack, seenHas, h2]

theorem iterate_arr_expand_eq (md ms : Option Nat) (seen : List Nat) (size : SizeCtr)
    (limit : Bool) (out : String) (tr : List Enc) (key : Option String) (idx : Option Nat)
    (depth : Nat) (id : Nat) (elems : List JSVal) (rest : List Frame)
    (h : seen.contains id = false)
    (hg : (!(addSizeStep ms 2 ⟨size, limit⟩).limit && depthLt depth md) = true) :
    iterateStack md ms ⟨seen, size, limit, out, ⟨key, .val (.varr id elems), idx, depth⟩ :: rest, tr⟩ =
      ⟨id :: seen,
        (pushArrChildren ms elems 0 (depth + 1) (addSizeStep ms 2 ⟨size, limit⟩)).1.size,
        (pushArrChildren ms elems 0 (depth + 1) (addSizeStep ms 2 ⟨size, limit⟩)).1.limit,
        out,
        ((⟨key, .enc .lbracket, idx, depth⟩ : Frame) ::
            (pushArrChildren ms elems 0 (depth + 1) (addSizeStep ms 2 ⟨size, limit⟩)).2 ++
            [(⟨none, .enc .rbracket, none, depth⟩ : Frame)]).reverse ++ rest,
        tr⟩ := by
  have h2 : id ∉ seen := by simpa using h
  simp [iterateStack, seenHas, h2, hg]

theorem iterate_arr_collapse_eq (md ms : Option Nat) (seen : List Nat) (size : SizeCtr)
    (limit : Bool) (out : String) (tr : List Enc) (key : Option String) (idx : Option Nat)
    (depth : Nat) (id : Nat) (elems : List JSVal) (rest : List Frame)
    (h : seen.contains id = false)
    (hg : (!(addSizeStep ms 2 ⟨size, limit⟩).limit && depthLt depth md) = false) :
    iterateStack md ms ⟨seen, size, limit, out, ⟨key, .val (.varr id elems), idx, depth⟩ :: rest, tr⟩ =
      ⟨id :: seen, (addSizeStep ms 2 ⟨size, limit⟩).size, (addSizeStep ms 2 ⟨size, limit⟩).limit,
        render key (.enc .brackets) idx out, rest, .brackets :: tr⟩ := by
  have h2 : id ∉ seen := by simpa using h
  simp [iterateStack, seenHas, h2, hg]

theorem iterate_obj_empty_eq (md ms : Option Nat) (seen : List Nat) (size : SizeCtr)
    (limit : Bool) (out : String) (tr : List Enc) (key : Option String) (idx : Option Nat)
    (depth : Nat) (id : Nat) (rest : List Frame) (h : seen.contains id = false) :
    iterateStack md ms ⟨seen, size, limit, out, ⟨key, .val (.vobj id []), idx, depth⟩ :: rest, tr⟩ =
      ⟨id :: seen, size, limit, out, rest, tr⟩ := by
  have h2 : id ∉ seen := by simpa using h
  simp [iterateStack, seenHas, h2]

theorem iterate_obj_expand_eq (md ms : Option Nat) (seen : List Nat) (size : SizeCtr)
    (limit : Bool) (out : String) (tr : List Enc) (key : Option String) (idx : Option Nat)
    (depth : Nat) (id : Nat) (fields : List (String × JSVal)) (rest : List Frame)
    (h : seen.contains id = false) (hne : fields ≠ [])
    (hg : (!(addSizeStep ms 2 ⟨size, limit⟩).limit && depthLt depth md) = true) :
    iterateStack md ms ⟨seen, size, limit, out, ⟨key, .val (.vobj id fields), idx, depth⟩ :: rest, tr⟩ =
      ⟨id :: seen,
        (pushObjChildren ms fields 0 (depth + 1) (addSizeStep ms 2 ⟨size, limit⟩)).1.size,
        (pushObjChildren ms fields 0 (depth + 1) (addSizeStep ms 2 ⟨size, limit⟩)).1.limit,
        out,
        ((⟨key, .enc .lbrace, idx, depth⟩ : Frame) ::
            (pushObjChildren ms fields 0 (depth + 1) (addSizeStep ms 2 ⟨size, limit⟩)).2 ++
            [(⟨none, .enc .rbrace, none, depth⟩ : Frame)]).reverse ++ rest,
        tr⟩ := by
  have h2 : id ∉ seen := by simpa using h
  have hne2 : fields.isEmpty = false := by
    cases fields
    · simp at hne
    · rfl
  simp [iterateStack, seenHas, h2, hne2, hg]

theorem iterate_obj_collapse_eq (md ms : Option Nat) (seen : List Nat) (size : SizeCtr)
    (limit : Bool) (out : String) (tr : List Enc) (key : Option String) (idx : Option Nat)
    (depth : Nat) (id : Nat) (fields : List (String × JSVal)) (rest : List Frame)
    (h : seen.contains id = false) (hne : fields ≠ [])
    (hg : (!(addSizeStep ms 2 ⟨size, limit⟩).limit && depthLt depth md) = false) :
    iterateStack md ms ⟨seen, size, limit, out, ⟨key, .val (.vobj id fields), idx, depth⟩ :: rest, tr⟩ =
      ⟨id :: seen, (addSizeStep ms 2 ⟨size, limit⟩).size, (addSizeStep ms 2 ⟨size, limit⟩).limit,
        render key (.enc .braces) idx out, rest, .braces :: tr⟩ := by
  have h2 : id ∉ seen := by simpa using h
  have hne2 : fields.isEmpty = false := by
    cases fields
    · simp at hne
    · rfl
  simp [iterateStack, seenHas, h2, hne2, hg]

theorem iterate_null_eq (md ms : Option Nat) (seen : List Nat) (size : SizeCtr) (limit : Bool)
    (out : String) (tr : List Enc) (key : Option String) (idx : Option Nat) (depth : Nat)
    (rest : List Frame) :
    iterateStack md ms ⟨seen, size, limit, out, ⟨key, .val .vnull, idx, depth⟩ :: rest, tr⟩ =
      (if idxTruthy idx then
        ⟨seen, (addSizeStep ms 1 ⟨size, limit⟩).size, (addSizeStep ms 1 ⟨size, limit⟩).limit,
          render key .rnull idx out, rest, tr⟩
      else ⟨seen, size, limit, render key .rnull idx out, rest, tr⟩) := by
  simp only [iterateStack, seenHas]
  split
  · simp_all
  · split <;> simp [addSizeSt]

theorem iterate_bool_eq (md ms : Option Nat) (seen : List Nat) (size : SizeCtr) (limit : Bool)
    (out : String) (tr : List Enc) (key : Option String) (idx : Option Nat) (depth : Nat)
    (b : Bool) (rest : List Frame) :
    iterateStack md ms ⟨seen, size, limit, out, ⟨key, .val (.vbool b), idx, depth⟩ :: rest, tr⟩ =
      (if idxTruthy idx then
        ⟨seen, (addSizeStep ms 1 ⟨size, limit⟩).size, (addSizeStep ms 1 ⟨size, limit⟩).limit,
          render key (.rbool b) idx out, rest, tr⟩
      else ⟨seen, size, limit, render key (.rbool b) idx out, rest, tr⟩) := by
  simp only [iterateStack, seenHas]
  split
  · simp_all
  · split <;> simp [addSizeSt]

theorem iterate_num_eq (md ms : Option Nat) (seen : List Nat) (size : SizeCtr) (limit : Bool)
    (out : String) (tr : List Enc) (key : Option String) (idx : Option Nat) (depth : Nat)
    (t : String) (rest : List Frame) :
    iterateStack md ms ⟨seen, size, limit, out, ⟨key, .val (.vnum t), idx, depth⟩ :: rest, tr⟩ =
      (if idxTruthy idx then
        ⟨seen, (addSizeStep ms 1 ⟨size, limit⟩).size, (addSizeStep ms 1 ⟨size, limit⟩).limit,
          render key (.rnum t) idx out, rest, tr⟩
      else ⟨seen, size, limit, render key (.rnum t) idx out, rest, tr⟩) := by
  simp only [iterateStack, seenHas]
  split
  · simp_all
  · split <;> simp [addSizeSt]

theorem iterate_str_eq (md ms : Option Nat) (seen : List Nat) (size : SizeCtr) (limit : Bool)
    (out : String) (tr : List Enc) (key : Option String) (idx : Option Nat) (depth : Nat)
    (s : String) (rest : List Frame) :
    iterateStack md ms ⟨seen, size, limit, out, ⟨key, .val (.vstr s), idx, depth⟩ :: rest, tr⟩ =
      (if idxTruthy idx then
        ⟨seen, (addSizeStep ms 1 ⟨size, limit⟩).size, (addSizeStep ms 1 ⟨size, limit⟩).limit,
          render key (.rstr s) idx out, rest, tr⟩
      else ⟨seen, size, limit, render key (.rstr s) idx out, rest, tr⟩) := by
  simp only [iterateStack, seenHas]
  split
  · simp_all
  · split <;> simp [addSizeSt]

theorem iterate_enc_eq (md ms : Option Nat) (seen : List Nat) (size : SizeCtr) (limit : Bool)
    (out : String) (tr : List Enc) (key : Option String) (idx : Option Nat) (depth : Nat)
    (e : Enc) (rest : List Frame) :
    iterateStack md ms ⟨seen, size, limit, out, ⟨key, .enc e, idx, depth⟩ :: rest, tr⟩ =
      (if idxTruthy idx then
        ⟨seen, (addSizeStep ms 1 ⟨size, limit⟩).size, (addSizeStep ms 1 ⟨size, limit⟩).limit,
          render key (.enc e) idx out, rest, e :: tr⟩
      else ⟨seen, size, limit, render key (.enc e) idx out, rest, e :: tr⟩) := by
  simp only [iterateStack]
  split <;> simp [addSizeSt]

/-- The escaping rule as the specification words it: the seven named control
characters map to their canonical two-character escapes, any other ASCII
control character (0x00–0x1F) maps to a four-hex-digit `\u00XX` escape,
and every other character — including the single quote — passes through
unchanged. -/
def escapeCharSpec (c : Char) : List Char :=
  if c = '\x08' then ['\\', 'b']
  else if c = '\t' then ['\\', 't']
  else if c = '\n' then ['\\', 'n']
  else if c = '\x0c' then ['\\', 'f']
  else if c = '\r' then ['\\', 'r']
  else if c = '"' then ['\\', '"']
  else if c = '\\' then ['\\', '\\']
  else if c.toNat < 0x20 then ['\\', 'u', '0', '0', hexDigit (c.toNat / 16), hexDigit (c.toNat % 16)]
  else [c]

theorem escape_char_agrees (c : Char) :
    (if needsEscape c then escapeChar c else [c]) = escapeCharSpec c := by
  by_cases h1 : c = '\x08'
  · subst h1; rfl
  by_cases h2 : c = '\t'
  · subst h2; rfl
  by_cases h3 : c = '\n'
  · subst h3; rfl
  by_cases h4 : c = '\x0c'
  · subst h4; rfl
  by_cases h5 : c = '\r'
  · subst h5; rfl
  by_cases h6 : c = '"'
  · subst h6; rfl
  by_cases h7 : c = '\\'
  · subst h7; rfl
  by_cases h8 : c.toNat ≤ 0x1f
  · have hne : needsEscape c = true := by
      simp only [needsEscape, Bool.or_eq_true, decide_eq_true_eq]
      exact Or.inl (Or.inl h8)
    rw [if_pos hne, escapeChar, escapeCharSpec]
    simp only [h1, h2, h3, h4, h5, h6, h7, if_false]
    rw [if_pos (by omega)]
    have e1 : c.toNat / 4096 = 0 := Nat.div_eq_of_lt (by omega)
    have e2 : c.toNat / 256 = 0 := Nat.div_eq_of_lt (by omega)
    have e3 : c.toNat / 16 < 16 := by
      rw [Nat.div_lt_iff_lt_mul (by norm_num)]
      omega
    rw [hex4, e1, e2, Nat.mod_eq_of_lt e3]
    rfl
  · have hne : needsEscape c = false := by
      simp only [needsEscape, Bool.or_eq_false_iff, decide_eq_false_iff_not]
      exact ⟨⟨h8, h6⟩, h7⟩
    rw [if_neg (by simp [hne]), escapeCharSpec]
    have hc : ¬(c.toNat < 0x20) := by omega
    simp only [h1, h2, h3, h4, h5, h6, h7, hc, if_false]

theorem escapeList_eq_spec (l : List Char) :
    escapeList l = (l.map escapeCharSpec).flatten := by
  induction l with
  | nil => rfl
  | cons c rest ih =>
    simp only [escapeList, List.map_cons, List.flatten_cons, ih, escape_char_agrees c]

theorem escapeList_id (l : List Char) (h : ∀ c ∈ l, needsEscape c = false) :
    escapeList l = l := by
  induction l with
  | nil => rfl
  | cons c rest ih =>
    have hc := h c (by simp)
    simp only [escapeList, hc, Bool.false_eq_true, if_false, List.singleton_append]
    rw [ih fun d hd => h d (by simp [hd])]

theorem escape_eq_escapeList (s : String) : escape s = String.mk (escapeList s.data) := by
  rw [escape]
  split
  · rfl
  · next h =>
    obtain ⟨data⟩ := s
    simp only [List.any_eq_true, not_exists, not_and, Bool.not_eq_true] at h
    rw [escapeList_id data h]

/-- C9: for every string, `escape` maps backspace, tab, line feed, form feed,
carriage return, double quote and backslash to their canonical two-character
escapes, maps every other ASCII control character (0x00–0x1F) to a
four-hex-digit `\u00XX` escape, and leaves every other character — including
the single quote — unchanged (`escapeCharSpec` is that character-wise rule). -/
theorem escape_rule_C9 :
    (∀ s : String, escape s = String.mk (s.data.map escapeCharSpec).flatten) ∧
    escape "'" = "'" ∧
    escape "\t" = "\\t" ∧
    escape "\x0b" = "\\u000b" ∧
    escape "a\"b\\c" = "a\\\"b\\\\c" := by
  refine ⟨fun s => ?_, rfl, rfl, rfl, rfl⟩
  rw [escape_eq_escapeList, escapeList_eq_spec]

/-- C10: mapping keys are emitted verbatim, unescaped, between the quotes of
their `"key":` prefix — `render` applies `escape` only to string values,
never to keys; a key containing a double quote, backslash or control
character is written unchanged (and hence can produce malformed output),
while the same text as a string value is escaped. -/
theorem render_key_verbatim_C10 :
    (∀ (k : String) (arg : RArg) (idx : Option Nat) (out : String),
      (∃ c ∈ k.data, c = '"' ∨ c = '\\' ∨ c.toNat < 0x20) →
      render (some k) arg idx out =
        (if idxTruthy idx then "," else "") ++ "\"" ++ k ++ "\":" ++ rargText arg ++ out) ∧
    smartSerialize (.vobj 0 [("a\"b", .vnum "1")]) none none = "\x7b\"a\"b\":1\x7d" ∧
    smartSerialize (.vstr "a\"b") none none = "\"a\\\"b\"" := by
  refine ⟨fun k arg idx out h => ?_, rfl, rfl⟩
  obtain ⟨c, hc, hor⟩ := h
  have hk : k.isEmpty = false := by
    cases hemp : k.isEmpty
    · rfl
    · rw [String.isEmpty_iff] at hemp
      subst hemp
      simp at hc
  rw [render]
  simp only [hk, Bool.not_false, if_true]
  simp [String.append_assoc]

/-- C4: a container value popped at depth ≥ maxDepth that is not already in
the Identity Guard renders in place as its empty enclosure form — `[]` for
any Sequence, `{}` for a Mapping with at least one key — pushing none of
its children (the resulting stack is exactly the remaining frames); and
the worked example `serialize({foo:{bar:{baz:"qux"}}}, 2)` =
`'{"foo":{"bar":{}}}'`. -/
theorem depth_collapse_C4 :
    (∀ md ms seen size limit out tr key idx depth id elems rest,
      List.contains seen id = false → depthLt depth md = false →
      iterateStack md ms
          ⟨seen, size, limit, out, ⟨key, .val (.varr id elems), idx, depth⟩ :: rest, tr⟩ =
        ⟨id :: seen, (addSizeStep ms 2 ⟨size, limit⟩).size, (addSizeStep ms 2 ⟨size, limit⟩).limit,
          render key (.enc .brackets) idx out, rest, .brackets :: tr⟩) ∧
    (∀ md ms seen size limit out tr key idx depth id fields rest,
      List.contains seen id = false → depthLt depth md = false → fields ≠ [] →
      iterateStack md ms
          ⟨seen, size, limit, out, ⟨key, .val (.vobj id fields), idx, depth⟩ :: rest, tr⟩ =
        ⟨id :: seen, (addSizeStep ms 2 ⟨size, limit⟩).size, (addSizeStep ms 2 ⟨size, limit⟩).limit,
          render key (.enc .braces) idx out, rest, .braces :: tr⟩) ∧
    smartSerialize (.vobj 0 [("foo", .vobj 1 [("bar", .vobj 2 [("baz", .vstr "qux")])])])
        (some 2) none =
      "\x7b\"foo\":\x7b\"bar\":\x7b\x7d\x7d\x7d" := by
  refine ⟨fun md ms seen size limit out tr key idx depth id elems rest h hd => ?_,
    fun md ms seen size limit out tr key idx depth id fields rest h hd hne => ?_, rfl⟩
  · exact iterate_arr_collapse_eq md ms seen size limit out tr key idx depth id elems rest h
      (by simp [hd])
  · exact iterate_obj_collapse_eq md ms seen size limit out tr key idx depth id fields rest h hne
      (by simp [hd])

/-- Witness for C4: a concrete array frame at depth 3 with maxDepth 2
collapses to `[]` with nothing pushed. -/
theorem depth_collapse_C4_witness :
    List.contains ([] : List Nat) 5 = false ∧ depthLt 3 (some 2) = false ∧
    iterateStack (some 2) none
        ⟨[], .num 0, false, "", [⟨none, .val (.varr 5 [.vnull]), none, 3⟩], []⟩ =
      ⟨[5], .num 2, false, "[]", [], [.brackets]⟩ := by
  refine ⟨rfl, rfl, ?_⟩
  rw [depth_collapse_C4.1 (some 2) none [] (.num 0) false "" [] none none 3 5 [.vnull] [] rfl rfl]
  rfl

theorem iterate_size_evolves (md ms : Option Nat) (st : SState) :
    SizeEvolves st.size (iterateStack md ms st).size := by
  obtain ⟨seen, size, limit, output, stack, trace⟩ := st
  cases stack with
  | nil => exact .refl
  | cons fr rest =>
    obtain ⟨key, payload, idx, depth⟩ := fr
    have hnum : ∀ k : Nat, SizeEvolves size ((addSizeStep ms k ⟨size, limit⟩).size) := by
      intro k
      rw [addSizeStep_size]
      exact .addNum _ _ .refl
    cases payload with
    | enc e =>
      simp only [iterateStack]
      split
      · simpa [addSizeSt] using hnum 1
      · exact .refl
    | val v =>
      have hseen : SizeEvolves size
          ((if (addSizeSt ms 20
              ⟨seen, size, limit, output, rest, trace⟩).limit = true then
            addSizeSt ms 20 ⟨seen, size, limit, output, rest, trace⟩
          else
            { addSizeSt ms 20 ⟨seen, size, limit, output, rest, trace⟩ with
              output := render key (.rstr "[circular reference]") idx
                (addSizeSt ms 20 ⟨seen, size, limit, output, rest, trace⟩).output }).size) := by
        split <;> simpa [addSizeSt] using hnum 20
      cases v with
      | vnull =>
        simp only [iterateStack, seenHas]
        split
        · simp_all
        · split
          · simpa [addSizeSt] using hnum 1
          · exact .refl
      | vbool b =>
        simp only [iterateStack, seenHas]
        split
        · simp_all
        · split
          · simpa [addSizeSt] using hnum 1
          · exact .refl
      | vnum t =>
        simp only [iterateStack, seenHas]
        split
        · simp_all
        · split
          · simpa [addSizeSt] using hnum 1
          · exact .refl
      | vstr s =>
        simp only [iterateStack, seenHas]
        split
        · simp_all
        · split
          · simpa [addSizeSt] using hnum 1
          · exact .refl
      | vfunc name =>
        simp only [iterateStack, seenHas]
        split
        · simp_all
        · exact .refl
      | vdate id iso =>
        simp only [iterateStack]
        split
        · split <;> simpa [addSizeSt] using hnum 20
        · exact .refl
      | verror id text =>
        simp only [iterateStack]
        split
        · split <;> simpa [addSizeSt] using hnum 20
        · exact .refl
      | vregexp id text =>
        simp only [iterateStack]
        split
        · split <;> simpa [addSizeSt] using hnum 20
        · exact .refl
      | varr id elems =>
        simp only [iterateStack]
        split
        · split <;> simpa [addSizeSt] using hnum 20
        · split
          · exact SizeEvolves.trans (hnum 2)
              (pushArrChildren_size_evolves ms elems 0 (depth + 1) _)
          · exact hnum 2
      | vobj id fields =>
        simp only [iterateStack]
        split
        · split <;> simpa [addSizeSt] using hnum 20
        · split
          · exact .refl
          · split
            · exact SizeEvolves.trans (hnum 2)
                (pushObjChildren_size_evolves ms fields 0 (depth + 1) _)
            · exact hnum 2

theorem iterate_limit_mono (md ms : Option Nat) (st : SState) (h : st.limit = true) :
    (iterateStack md ms st).limit = true := by
  obtain ⟨seen, size, limit, output, stack, trace⟩ := st
  simp only at h
  subst h
  cases stack with
  | nil => rfl
  | cons fr rest =>
    obtain ⟨key, payload, idx, depth⟩ := fr
    have hnum : ∀ k : Nat, (addSizeStep ms k ⟨size, true⟩).limit = true := fun k =>
      addSizeStep_limit_mono ms k ⟨size, true⟩ rfl
    cases payload with
    | enc e =>
      simp only [iterateStack]
      split
      · simpa [addSizeSt] using hnum 1
      · rfl
    | val v =>
      cases v with
      | vnull =>
        simp only [iterateStack, seenHas]
        split
        · simp_all
        · split
          · simpa [addSizeSt] using hnum 1
          · rfl
      | vbool b =>
        simp only [iterateStack, seenHas]
        split
        · simp_all
        · split
          · simpa [addSizeSt] using hnum 1
          · rfl
      | vnum t =>
        simp only [iterateStack, seenHas]
        split
        · simp_all
        · split
          · simpa [addSizeSt] using hnum 1
          · rfl
      | vstr s =>
        simp only [iterateStack, seenHas]
        split
        · simp_all
        · split
          · simpa [addSizeSt] using hnum 1
          · rfl
      | vfunc name =>
        simp only [iterateStack, seenHas]
        split
        · simp_all
        · rfl
      | vdate id iso =>
        simp only [iterateStack]
        split
        · split <;> simpa [addSizeSt] using hnum 20
        · rfl
      | verror id text =>
        simp only [iterateStack]
        split
        · split <;> simpa [addSizeSt] using hnum 20
        · rfl
      | vregexp id text =>
        simp only [iterateStack]
        split
        · split <;> simpa [addSizeSt] using hnum 20
        · rfl
      | varr id elems =>
        simp only [iterateStack]
        split
        · split <;> simpa [addSizeSt] using hnum 20
        · split
          · next hg => simp [hnum 2] at hg
          · simpa using hnum 2
      | vobj id fields =>
        simp only [iterateStack]
        split
        · split <;> simpa [addSizeSt] using hnum 20
        · split
          · rfl
          · split
            · next hg => simp [hnum 2] at hg
            · simpa using hnum 2

theorem iterate_stack_after_limit (md ms : Option Nat) (st : SState) (fr : Frame)
    (rest : List Frame) (hs : st.stack = fr :: rest) (h : st.limit = true) :
    (iterateStack md ms st).stack = rest := by
  obtain ⟨seen, size, limit, output, stack, trace⟩ := st
  simp only at h hs
  subst h
  subst hs
  obtain ⟨key, payload, idx, depth⟩ := fr
  have hnum : ∀ k : Nat, (addSizeStep ms k ⟨size, true⟩).limit = true := fun k =>
    addSizeStep_limit_mono ms k ⟨size, true⟩ rfl
  cases payload with
  | enc e =>
    simp only [iterateStack]
    split <;> simp [addSizeSt]
  | val v =>
    cases v with
    | vnull =>
      simp only [iterateStack, seenHas]
      split
      · simp_all
      · split <;> simp [addSizeSt]
    | vbool b =>
      simp only [iterateStack, seenHas]
      split
      · simp_all
      · split <;> simp [addSizeSt]
    | vnum t =>
      simp only [iterateStack, seenHas]
      split
      · simp_all
      · split <;> simp [addSizeSt]
    | vstr s =>
      simp only [iterateStack, seenHas]
      split
      · simp_all
      · split <;> simp [addSizeSt]
    | vfunc name =>
      simp only [iterateStack, seenHas]
      split
      · simp_all
      · rfl
    | vdate id iso =>
      simp only [iterateStack]
      split
      · split <;> simp [addSizeSt]
      · rfl
    | verror id text =>
      simp only [iterateStack]
      split
      · split <;> simp [addSizeSt]
      · rfl
    | vregexp id text =>
      simp only [iterateStack]
      split
      · split <;> simp [addSizeSt]
      · rfl
    | varr id elems =>
      simp only [iterateStack]
      split
      · split <;> simp [addSizeSt]
      · split
        · next hg => simp [hnum 2] at hg
        · rfl
    | vobj id fields =>
      simp only [iterateStack]
      split
      · split <;> simp [addSizeSt]
      · split
        · rfl
        · split
          · next hg => simp [hnum 2] at hg
          · rfl

/-- C3 (amended): across every single step, the size counter only
accumulates additions (in particular it never decreases while numeric),
the `sizeLimitReached` flag only transitions false→true, and once the flag
is set no frame is ever pushed (the stack strictly shrinks to its tail);
every later unseen Sequence collapses to `[]`, every later unseen Mapping
with at least one key collapses to `{}`, and a Mapping with zero keys
renders nothing — as it does whether or not the limit was reached. -/
theorem sticky_limit_C3 :
    (∀ md ms st, SizeEvolves st.size (iterateStack md ms st).size) ∧
    (∀ a b : Nat, SizeEvolves (.num a) (.num b) → a ≤ b) ∧
    (∀ md ms st, st.limit = true → (iterateStack md ms st).limit = true) ∧
    (∀ md ms st fr rest, st.stack = fr :: rest → st.limit = true →
      (iterateStack md ms st).stack = rest) ∧
    (∀ md ms seen size out tr key idx depth id elems rest, List.contains seen id = false →
      iterateStack md ms
          ⟨seen, size, true, out, ⟨key, .val (.varr id elems), idx, depth⟩ :: rest, tr⟩ =
        ⟨id :: seen, (addSizeStep ms 2 ⟨size, true⟩).size, (addSizeStep ms 2 ⟨size, true⟩).limit,
          render key (.enc .brackets) idx out, rest, .brackets :: tr⟩) ∧
    (∀ md ms seen size out tr key idx depth id fields rest, List.contains seen id = false →
      fields ≠ [] →
      iterateStack md ms
          ⟨seen, size, true, out, ⟨key, .val (.vobj id fields), idx, depth⟩ :: rest, tr⟩ =
        ⟨id :: seen, (addSizeStep ms 2 ⟨size, true⟩).size, (addSizeStep ms 2 ⟨size, true⟩).limit,
          render key (.enc .braces) idx out, rest, .braces :: tr⟩) ∧
    (∀ md ms seen size out tr key idx depth id rest, List.contains seen id = false →
      iterateStack md ms
          ⟨seen, size, true, out, ⟨key, .val (.vobj id []), idx, depth⟩ :: rest, tr⟩ =
        ⟨id :: seen, size, true, out, rest, tr⟩) := by
  refine ⟨iterate_size_evolves, fun a b h => h.num_le, iterate_limit_mono,
    iterate_stack_after_limit, ?_, ?_, ?_⟩
  · intro md ms seen size out tr key idx depth id elems rest h
    exact iterate_arr_collapse_eq md ms seen size true out tr key idx depth id elems rest h
      (by simp [addSizeStep_limit_mono ms 2 ⟨size, true⟩ rfl])
  · intro md ms seen size out tr key idx depth id fields rest h hne
    exact iterate_obj_collapse_eq md ms seen size true out tr key idx depth id fields rest h hne
      (by simp [addSizeStep_limit_mono ms 2 ⟨size, true⟩ rfl])
  · intro md ms seen size out tr key idx depth id rest h
    exact iterate_obj_empty_eq md ms seen size true out tr key idx depth id rest h

/-- Counterexample to C3 as stated: after the size limit trips, a Mapping
with zero keys does not collapse to its empty enclosure form `{}` — it
renders nothing at all.  Serializing `[{}, "0123456789"]` with
`maxSize = 5` trips the budget while measuring the string; the empty
object is then popped after the trip and vanishes, giving `"[]"`, not
`"[{}]"`. -/
theorem sticky_limit_C3_counterexample :
    smartSerialize (.varr 0 [.vobj 1 [], .vstr "0123456789"]) none (some 5) = "[]" ∧
    smartSerialize (.varr 0 [.vobj 1 [], .vstr "0123456789"]) none (some 5) ≠ "[\x7b\x7d]" := by
  exact ⟨rfl, by decide⟩

/-- Witness for C3: one concrete tripped step pops its frame and pushes
nothing. -/
theorem sticky_limit_C3_witness :
    (⟨[], .num 9, true, "", [⟨none, .val (.vstr "x"), none, 0⟩], []⟩ : SState).stack =
        ⟨none, .val (.vstr "x"), none, 0⟩ :: [] ∧
    (⟨[], .num 9, true, "", [⟨none, .val (.vstr "x"), none, 0⟩], []⟩ : SState).limit = true ∧
    (iterateStack none (some 5)
        ⟨[], .num 9, true, "", [⟨none, .val (.vstr "x"), none, 0⟩], []⟩).stack = [] := by
  refine ⟨rfl, rfl, ?_⟩
  exact sticky_limit_C3.2.2.2.1 none (some 5) _ _ [] rfl rfl

/-- C5: the leaf estimation rules are as claimed — `null`/`true` add 4,
`false` adds 5, a string adds `length + 2`, a number its decimal-text
length, a date 26, a function `13 + name.length`, containers add nothing
when measured and charge 2 when popped unseen, a mapping key charges
`key.length + 3`, and a leaf or open-marker sibling at index ≥ 1 charges 1
for its comma — but for an `Error`/`RegExp` the code computes
`size += value.toString()` with the string itself, not its length: the
counter becomes a string, and every later `size > maxSize` check is a
`NaN` comparison that stays false, permanently disabling the limit. -/
theorem measureSize_rules_C5 :
    (∀ n, measureSize .vnull (.num n) = .num (n + 4)) ∧
    (∀ n, measureSize (.vbool true) (.num n) = .num (n + 4)) ∧
    (∀ n, measureSize (.vbool false) (.num n) = .num (n + 5)) ∧
    (∀ n s, measureSize (.vstr s) (.num n) = .num (n + (s.length + 2))) ∧
    (∀ n t, measureSize (.vnum t) (.num n) = .num (n + t.length)) ∧
    (∀ n id iso, measureSize (.vdate id iso) (.num n) = .num (n + 26)) ∧
    (∀ n name, measureSize (.vfunc name) (.num n) = .num (n + (13 + name.length))) ∧
    (∀ n id elems, measureSize (.varr id elems) (.num n) = .num n) ∧
    (∀ n id fields, measureSize (.vobj id fields) (.num n) = .num n) ∧
    (∀ n id t, measureSize (.verror id t) (.num n) = .str (Nat.repr n ++ t)) ∧
    (∀ n id t, measureSize (.vregexp id t) (.num n) = .str (Nat.repr n ++ t)) ∧
    measureSize (.verror 1 "Error: x") (.num 2) = .str "2Error: x" ∧
    SizeCtr.str "2Error: x" ≠ .num (2 + ("Error: x" : String).length) ∧
    sizeGt (.str "2Error: x") (some 5) = false ∧
    smartSerialize (.varr 0 [.verror 1 "Error: x", .vstr "aaaaaaaaaaaaaaaaaaaaaaaaaaaaaa"])
        none (some 10) = "[\"Error: x\",\"aaaaaaaaaaaaaaaaaaaaaaaaaaaaaa\"]" ∧
    (∀ ms k v i depth sz, (pushObjChildren ms [(k, v)] i depth sz).1 =
      if (addSizeStep ms (k.length + 3) sz).limit then addSizeStep ms (k.length + 3) sz
      else measureStep ms v (addSizeStep ms (k.length + 3) sz)) ∧
    (∀ ms n out tr key idx depth id,
      (iterateStack none ms
          ⟨[], .num n, false, out, [⟨key, .val (.varr id []), idx, depth⟩], tr⟩).size =
        (addSizeStep ms 2 ⟨.num n, false⟩).size) ∧
    (∀ md ms seen size limit out tr key t i depth rest,
      (iterateStack md ms
          ⟨seen, size, limit, out, ⟨key, .val (.vnum t), some (i + 1), depth⟩ :: rest, tr⟩).size =
        (addSizeStep ms 1 ⟨size, limit⟩).size) ∧
    (∀ md ms seen size limit out tr key e i depth rest,
      (iterateStack md ms
          ⟨seen, size, limit, out, ⟨key, .enc e, some (i + 1), depth⟩ :: rest, tr⟩).size =
        (addSizeStep ms 1 ⟨size, limit⟩).size) := by
  refine ⟨fun n => rfl, fun n => rfl, fun n => rfl, fun n s => rfl, fun n t => rfl,
    fun n id iso => rfl, fun n name => rfl, fun n id elems => rfl, fun n id fields => rfl,
    fun n id t => rfl, fun n id t => rfl, rfl, by decide, rfl, rfl,
    fun ms k v i depth sz => rfl, ?_, ?_, ?_⟩
  · intro ms n out tr key idx depth id
    simp [iterateStack, seenHas, pushArrChildren, apply_ite SState.size]
  · intro md ms seen size limit out tr key t i depth rest
    rw [iterate_num_eq]
    simp [idxTruthy]
  · intro md ms seen size limit out tr key e i depth rest
    rw [iterate_enc_eq]
    simp [idxTruthy]

theorem iterate_unseen_seen_insert (md ms : Option Nat) (seen : List Nat) (size : SizeCtr)
    (limit : Bool) (out : String) (tr : List Enc) (key : Option String) (idx : Option Nat)
    (depth : Nat) (v : JSVal) (id : Nat) (rest : List Frame)
    (hv : seenHas seen v = false) (hid : idOf v = some id) :
    (iterateStack md ms ⟨seen, size, limit, out, ⟨key, .val v, idx, depth⟩ :: rest, tr⟩).seen =
      id :: seen := by
  cases v with
  | vnull => simp [idOf] at hid
  | vbool b => simp [idOf] at hid
  | vnum t => simp [idOf] at hid
  | vstr s => simp [idOf] at hid
  | vfunc name => simp [idOf] at hid
  | vdate id2 iso =>
    simp only [idOf, Option.some.injEq] at hid
    subst hid
    simp only [seenHas] at hv
    rw [iterate_date_eq md ms seen size limit out tr key idx depth id2 iso rest hv]
  | verror id2 text =>
    simp only [idOf, Option.some.injEq] at hid
    subst hid
    simp only [seenHas] at hv
    rw [iterate_error_eq md ms seen size limit out tr key idx depth id2 text rest hv]
  | vregexp id2 text =>
    simp only [idOf, Option.some.injEq] at hid
    subst hid
    simp only [seenHas] at hv
    rw [iterate_regexp_eq md ms seen size limit out tr key idx depth id2 text rest hv]
  | varr id2 elems =>
    simp only [idOf, Option.some.injEq] at hid
    subst hid
    simp only [seenHas] at hv
    have h2 : id2 ∉ seen := by simpa using hv
    simp [iterateStack, seenHas, h2, apply_ite SState.seen]
  | vobj id2 fields =>
    simp only [idOf, Option.some.injEq] at hid
    subst hid
    simp only [seenHas] at hv
    have h2 : id2 ∉ seen := by simpa using hv
    simp [iterateStack, seenHas, h2, apply_ite SState.seen]

/-- C6 (amended): whenever a popped frame's payload is already in the
Identity Guard, the fixed 20-unit estimate is charged and — only if the
size limit is not reached once charged — the quoted `[circular reference]`
token is rendered in its place (nothing is rendered when the limit is
reached); every unseen object-typed value adds its identity to the guard
when first popped, so the guard fires on every later pop of the same
instance, for true cycles and shared references alike (frames pop in
reverse sibling order, so among sibling references the token lands on the
earlier document-order occurrences); the self-referential example
`a = {foo:{}}; a.foo.bar = a` yields
`'{"foo":{"bar":"[circular reference]"}}'`. -/
theorem circular_token_C6 :
    (∀ md ms seen size limit out tr key idx depth v rest, seenHas seen v = true →
      iterateStack md ms ⟨seen, size, limit, out, ⟨key, .val v, idx, depth⟩ :: rest, tr⟩ =
        (if (addSizeStep ms 20 ⟨size, limit⟩).limit then
          ⟨seen, (addSizeStep ms 20 ⟨size, limit⟩).size, (addSizeStep ms 20 ⟨size, limit⟩).limit,
            out, rest, tr⟩
        else
          ⟨seen, (addSizeStep ms 20 ⟨size, limit⟩).size, (addSizeStep ms 20 ⟨size, limit⟩).limit,
            render key (.rstr "[circular reference]") idx out, rest, tr⟩)) ∧
    (∀ md ms seen size limit out tr key idx depth v id rest,
      seenHas seen v = false → idOf v = some id →
      (iterateStack md ms
          ⟨seen, size, limit, out, ⟨key, .val v, idx, depth⟩ :: rest, tr⟩).seen = id :: seen) ∧
    smartSerialize (.vobj 0 [("foo", .vobj 1 [("bar", .vobj 0 [])])]) none none =
      "\x7b\"foo\":\x7b\"bar\":\"[circular reference]\"\x7d\x7d" := by
  refine ⟨?_, ?_, rfl⟩
  · intro md ms seen size limit out tr key idx depth v rest h
    exact iterate_seen_eq md ms seen size limit out tr key idx depth v rest h
  · intro md ms seen size limit out tr key idx depth v id rest hv hid
    exact iterate_unseen_seen_insert md ms seen size limit out tr key idx depth v id rest hv hid

/-- Counterexample to C6 as stated.  First: the token is not always
rendered — serializing `[x, x, "a"×40]` (`x` one shared empty array) with
`maxSize = 10` trips the budget before the second occurrence of `x` is
popped, so the guard charges its 20 units but renders nothing, giving the
token-free (and malformed) output `"[,[]]"`.  Second: with two sibling
references to one shared object, the token is rendered for the *first*
document-order occurrence, not the second — the last-pushed sibling is
popped first and expands. -/
theorem circular_token_C6_counterexample :
    smartSerialize
        (.varr 0 [.varr 7 [], .varr 7 [], .vstr "aaaaaaaaaaaaaaaaaaaaaaaaaaaaaaaaaaaaaaaa"])
        none (some 10) = "[,[]]" ∧
    ("[,[]]" : String).length < ("[circular reference]" : String).length ∧
    smartSerialize (.varr 0 [.vobj 5 [("a", .vnull)], .vobj 5 [("a", .vnull)]]) none none =
      "[\"[circular reference]\",\x7b\"a\":null\x7d]" := by
  exact ⟨rfl, by decide, rfl⟩

/-- Witness for C6: a concrete seen payload with an unreached budget renders
the token. -/
theorem circular_token_C6_witness :
    seenHas [3] (.varr 3 []) = true ∧
    iterateStack none none ⟨[3], .num 0, false, "", [⟨none, .val (.varr 3 []), none, 1⟩], []⟩ =
      ⟨[3], .num 20, false, "\"[circular reference]\"", [], []⟩ := by
  refine ⟨by decide, ?_⟩
  rw [circular_token_C6.1 none none [3] (.num 0) false "" [] none none 1 (.varr 3 []) []
    (by decide)]
  rfl

/-- C7 (amended): the Identity Guard applies to every object-typed value,
not only containers — an unseen `Date`/`Error`/`RegExp` renders its
platform string form and is added to the guard, so a second pop of the
same instance renders `[circular reference]`; distinct instances (even
with identical text) render their platform string at every occurrence;
primitives and functions are never added to the guard and never fire it. -/
theorem guard_scope_C7 :
    (∀ md ms seen size limit out tr key idx depth id iso rest, List.contains seen id = false →
      iterateStack md ms
          ⟨seen, size, limit, out, ⟨key, .val (.vdate id iso), idx, depth⟩ :: rest, tr⟩ =
        ⟨id :: seen, size, limit, render key (.rstr iso) idx out, rest, tr⟩) ∧
    (∀ md ms seen size limit out tr key idx depth id text rest, List.contains seen id = false →
      iterateStack md ms
          ⟨seen, size, limit, out, ⟨key, .val (.verror id text), idx, depth⟩ :: rest, tr⟩ =
        ⟨id :: seen, size, limit, render key (.rstr text) idx out, rest, tr⟩) ∧
    (∀ md ms seen size limit out tr key idx depth id text rest, List.contains seen id = false →
      iterateStack md ms
          ⟨seen, size, limit, out, ⟨key, .val (.vregexp id text), idx, depth⟩ :: rest, tr⟩ =
        ⟨id :: seen, size, limit, render key (.rstr text) idx out, rest, tr⟩) ∧
    smartSerialize
        (.varr 0 [.vdate 3 "2022-01-01T00:00:00.000Z", .vdate 3 "2022-01-01T00:00:00.000Z"])
        none none =
      "[\"[circular reference]\",\"2022-01-01T00:00:00.000Z\"]" ∧
    smartSerialize
        (.varr 0 [.vdate 1 "2022-01-01T00:00:00.000Z", .vdate 2 "2022-01-01T00:00:00.000Z"])
        none none =
      "[\"2022-01-01T00:00:00.000Z\",\"2022-01-01T00:00:00.000Z\"]" ∧
    (∀ seen b t s name, seenHas seen .vnull = false ∧ seenHas seen (.vbool b) = false ∧
      seenHas seen (.vnum t) = false ∧ seenHas seen (.vstr s) = false ∧
      seenHas seen (.vfunc name) = false) ∧
    (∀ md ms seen size limit out tr key idx depth name rest,
      (iterateStack md ms
          ⟨seen, size, limit, out, ⟨key, .val (.vfunc name), idx, depth⟩ :: rest, tr⟩).seen =
        seen) := by
  refine ⟨iterate_date_eq, iterate_error_eq, iterate_regexp_eq, rfl, rfl,
    fun seen b t s name => ⟨rfl, rfl, rfl, rfl, rfl⟩, ?_⟩
  intro md ms seen size limit out tr key idx depth name rest
  rw [iterate_func_eq]

/-- Counterexample to C7 as stated: one `Date` instance occurring twice
does not render its platform string at every occurrence — it is added to
the Identity Guard at its first pop, and the other occurrence renders the
`[circular reference]` token instead. -/
theorem guard_scope_C7_counterexample :
    smartSerialize
        (.varr 0 [.vdate 3 "2022-01-01T00:00:00.000Z", .vdate 3 "2022-01-01T00:00:00.000Z"])
        none none =
      "[\"[circular reference]\",\"2022-01-01T00:00:00.000Z\"]" ∧
    smartSerialize
        (.varr 0 [.vdate 3 "2022-01-01T00:00:00.000Z", .vdate 3 "2022-01-01T00:00:00.000Z"])
        none none ≠
      "[\"2022-01-01T00:00:00.000Z\",\"2022-01-01T00:00:00.000Z\"]" := by
  exact ⟨rfl, by decide⟩

/-- Witness for C7: a concrete unseen date renders its ISO text and joins
the guard. -/
theorem guard_scope_C7_witness :
    List.contains ([] : List Nat) 4 = false ∧
    iterateStack none none
        ⟨[], .num 0, false, "", [⟨none, .val (.vdate 4 "2024-05-06T07:08:09.000Z"), none, 0⟩], []⟩ =
      ⟨[4], .num 0, false, "\"2024-05-06T07:08:09.000Z\"", [], []⟩ := by
  refine ⟨rfl, ?_⟩
  rw [guard_scope_C7.1 none none [] (.num 0) false "" [] none none 0 4
    "2024-05-06T07:08:09.000Z" [] rfl]
  rfl

theorem runFuel_empty (md ms : Option Nat) (n : Nat) (st : SState) (h : st.stack = []) :
    runFuel md ms n st = st := by
  cases n with
  | zero => rfl
  | succ n => exact runFuel_succ_nil md ms n st h

theorem runStack_runFuel (md ms : Option Nat) :
    ∀ n st, runStack md ms (runFuel md ms n st) = runStack md ms st := by
  intro n
  induction n with
  | zero => intro st; rfl
  | succ n ih =>
    intro st
    by_cases he : st.stack = []
    · rw [runFuel_succ_nil _ _ _ _ he]
    · rw [runFuel_succ_cons _ _ _ _ he, ih, ← runStack_cons _ _ _ he]

theorem callbackChainFuel_eq (md ms : Option Nat) :
    ∀ fuel st, stackWeight st.stack < fuel →
      callbackChainFuel md ms fuel st = (runStack md ms st).output := by
  intro fuel
  induction fuel with
  | zero => intro st h; omega
  | succ n ih =>
    intro st h
    cases hs : (runFuel md ms BATCH_SIZE st).stack with
    | nil =>
      have h1 : runStack md ms (runFuel md ms BATCH_SIZE st) = runFuel md ms BATCH_SIZE st :=
        runStack_nil _ _ _ hs
      have h2 := runStack_runFuel md ms BATCH_SIZE st
      simp only [callbackChainFuel, hs]
      rw [← h2, h1]
    | cons a b =>
      have hne : st.stack ≠ [] := by
        intro hemp
        rw [runFuel_empty md ms _ st hemp, hemp] at hs
        exact absurd hs (by simp)
      have hw : stackWeight (runFuel md ms BATCH_SIZE st).stack < stackWeight st.stack := by
        have hb : BATCH_SIZE = 9999 + 1 := rfl
        rw [hb, runFuel_succ_cons _ _ _ _ hne]
        exact lt_of_le_of_lt (runFuel_weight_le _ _ _ _) (iterate_weight_lt _ _ _ hne)
      simp only [callbackChainFuel, hs]
      rw [ih _ (by omega), runStack_runFuel]

/-- C8 (amended): with a callback, `smartSerialize` runs one synchronous
batch of up to `BATCH_SIZE` frames and then returns the output accumulated
so far — a string, not `undefined`; when that first batch already drains
the stack the callback has been invoked synchronously with the completed
string (which is also returned), otherwise the remaining batches are
deferred and the completed string is delivered to the callback, equal to
the synchronous-mode result; without a callback the call blocks and
returns the string directly. -/
theorem callback_mode_C8 :
    (∀ object md ms, (smartSerializeCb object md ms).1 =
      (runFuel md ms BATCH_SIZE (initState object)).output) ∧
    (∀ object md ms, (runFuel md ms BATCH_SIZE (initState object)).stack = [] →
      (smartSerializeCb object md ms).2 = some (smartSerialize object md ms)) ∧
    (∀ object md ms, (runFuel md ms BATCH_SIZE (initState object)).stack ≠ [] →
      (smartSerializeCb object md ms).2 = none) ∧
    (∀ object md ms, callbackDelivered object md ms = smartSerialize object md ms) := by
  refine ⟨?_, ?_, ?_, ?_⟩
  · intro object md ms
    cases hs : (runFuel md ms BATCH_SIZE (initState object)).stack <;>
      simp [smartSerializeCb, hs]
  · intro object md ms h
    have h1 := runStack_runFuel md ms BATCH_SIZE (initState object)
    have h2 := runStack_nil md ms _ h
    simp only [smartSerializeCb, h, smartSerialize]
    rw [← h1, h2]
  · intro object md ms h
    cases hs : (runFuel md ms BATCH_SIZE (initState object)).stack with
    | nil => exact absurd hs h
    | cons a b => simp [smartSerializeCb, hs]
  · intro object md ms
    rw [callbackDelivered, callbackChainFuel_eq md ms _ _ (by omega), smartSerialize]

/-- Counterexample to C8 as stated: with a callback supplied, the call does
not return "no value" — it returns the output string built so far; for a
small input the first batch completes the work, the callback fires
synchronously, and the returned value is the entire completed string, so
delivery is not only through the handler. -/
theorem callback_mode_C8_counterexample :
    smartSerializeCb (.varr 0 [.vnum "1", .vnum "2", .vnum "3"]) none none =
      ("[1,2,3]", some "[1,2,3]") ∧ ("[1,2,3]" : String) ≠ "" := by
  exact ⟨rfl, by decide⟩

/-- Witness for C8: for a one-frame input the first batch drains the stack
and the callback is invoked synchronously with the completed string. -/
theorem callback_mode_C8_witness :
    (runFuel none none BATCH_SIZE (initState (.vnum "7"))).stack = [] ∧
    (smartSerializeCb (.vnum "7") none none).2 = some (smartSerialize (.vnum "7") none none) := by
  refine ⟨rfl, ?_⟩
  exact callback_mode_C8.2.1 (.vnum "7") none none rfl

/-- Number of array-open characters in one emitted enclosure marker. -/
def openArrCount : Enc → Nat
  | .lbracket => 1
  | .brackets => 1
  | _ => 0

/-- Number of array-close characters in one emitted enclosure marker. -/
def closeArrCount : Enc → Nat
  | .rbracket => 1
  | .brackets => 1
  | _ => 0

/-- Number of object-open characters in one emitted enclosure marker. -/
def openObjCount : Enc → Nat
  | .lbrace => 1
  | .braces => 1
  | _ => 0

/-- Number of object-close characters in one emitted enclosure marker. -/
def closeObjCount : Enc → Nat
  | .rbrace => 1
  | .braces => 1
  | _ => 0

/-- Total count over the ghost trace of emitted markers. -/
def traceCount (f : Enc → Nat) (tr : List Enc) : Nat :=
  (tr.map f).sum

/-- Total count over the sentinel frames still waiting on the stack. -/
def stackMarkCount (f : Enc → Nat) (l : List Frame) : Nat :=
  (l.map fun fr => match fr.payload with
    | .enc e => f e
    | .val _ => 0).sum

theorem stackMarkCount_append (f : Enc → Nat) (a b : List Frame) :
    stackMarkCount f (a ++ b) = stackMarkCount f a + stackMarkCount f b := by
  simp [stackMarkCount]

theorem stackMarkCount_reverse (f : Enc → Nat) (a : List Frame) :
    stackMarkCount f a.reverse = stackMarkCount f a := by
  simp [stackMarkCount, List.sum_reverse]

theorem pushArrChildren_markCount (f : Enc → Nat) (ms : Option Nat) (elems : List JSVal) :
    ∀ i depth sz, stackMarkCount f (pushArrChildren ms elems i depth sz).2 = 0 := by
  induction elems with
  | nil => intro i depth sz; rfl
  | cons v rest ih =>
    intro i depth sz
    simp only [pushArrChildren, stackMarkCount_append]
    rw [show (stackMarkCount f (pushArrChildren ms rest (i + 1) depth
      (measureStep ms v sz)).2) = 0 from ih _ _ _]
    split <;> rfl

theorem pushObjChildren_markCount (f : Enc → Nat) (ms : Option Nat)
    (fields : List (String × JSVal)) :
    ∀ i depth sz, stackMarkCount f (pushObjChildren ms fields i depth sz).2 = 0 := by
  induction fields with
  | nil => intro i depth sz; rfl
  | cons kv rest ih =>
    obtain ⟨k, v⟩ := kv
    intro i depth sz
    simp only [pushObjChildren, stackMarkCount_append]
    rw [show (stackMarkCount f (pushObjChildren ms rest (i + 1) depth
      (if (addSizeStep ms (k.length + 3) sz).limit = true then addSizeStep ms (k.length + 3) sz
       else measureStep ms v (addSizeStep ms (k.length + 3) sz))).2) = 0 from ih _ _ _]
    split
    · rfl
    · split <;> rfl

theorem traceCount_nil (f : Enc → Nat) : traceCount f [] = 0 := rfl

theorem traceCount_cons (f : Enc → Nat) (e : Enc) (tr : List Enc) :
    traceCount f (e :: tr) = f e + traceCount f tr := by
  simp [traceCount]

theorem stackMarkCount_nil (f : Enc → Nat) : stackMarkCount f [] = 0 := rfl

theorem stackMarkCount_cons_enc (f : Enc → Nat) (key : Option String) (e : Enc)
    (idx : Option Nat) (d : Nat) (l : List Frame) :
    stackMarkCount f (⟨key, .enc e, idx, d⟩ :: l) = f e + stackMarkCount f l := by
  simp [stackMarkCount]

theorem stackMarkCount_cons_val (f : Enc → Nat) (key : Option String) (v : JSVal)
    (idx : Option Nat) (d : Nat) (l : List Frame) :
    stackMarkCount f (⟨key, .val v, idx, d⟩ :: l) = stackMarkCount f l := by
  simp [stackMarkCount]

theorem iterate_marker_inv (md ms : Option Nat) (st : SState) (f g : Enc → Nat)
    (hbk : f .brackets = g .brackets) (hbc : f .braces = g .braces)
    (ha : f .lbracket + f .rbracket = g .lbracket + g .rbracket)
    (ho : f .lbrace + f .rbrace = g .lbrace + g .rbrace)
    (hinv : traceCount f st.trace + stackMarkCount f st.stack =
      traceCount g st.trace + stackMarkCount g st.stack) :
    traceCount f (iterateStack md ms st).trace +
        stackMarkCount f (iterateStack md ms st).stack =
      traceCount g (iterateStack md ms st).trace +
        stackMarkCount g (iterateStack md ms st).stack := by
  obtain ⟨seen, size, limit, output, stack, trace⟩ := st
  cases stack with
  | nil => exact hinv
  | cons fr rest =>
    obtain ⟨key, payload, idx, depth⟩ := fr
    simp only at hinv
    cases payload with
    | enc e =>
      rw [iterate_enc_eq]
      simp only [stackMarkCount_cons_enc] at hinv
      split <;> simp only [traceCount_cons] <;> omega
    | val v =>
      simp only [stackMarkCount_cons_val] at hinv
      by_cases hseen : seenHas seen v = true
      · rw [iterate_seen_eq md ms seen size limit output trace key idx depth v rest hseen]
        split <;> exact hinv
      · have hs2 : seenHas seen v = false := by simpa using hseen
        cases v with
        | vnull => rw [iterate_null_eq]; split <;> exact hinv
        | vbool b => rw [iterate_bool_eq]; split <;> exact hinv
        | vnum t => rw [iterate_num_eq]; split <;> exact hinv
        | vstr s => rw [iterate_str_eq]; split <;> exact hinv
        | vfunc name => rw [iterate_func_eq]; exact hinv
        | vdate id iso =>
          simp only [seenHas] at hs2
          rw [iterate_date_eq md ms seen size limit output trace key idx depth id iso rest hs2]
          exact hinv
        | verror id text =>
          simp only [seenHas] at hs2
          rw [iterate_error_eq md ms seen size limit output trace key idx depth id text rest hs2]
          exact hinv
        | vregexp id text =>
          simp only [seenHas] at hs2
          rw [iterate_regexp_eq md ms seen size limit output trace key idx depth id text rest hs2]
          exact hinv
        | varr id elems =>
          simp only [seenHas] at hs2
          by_cases hg : (!(addSizeStep ms 2 ⟨size, limit⟩).limit && depthLt depth md) = true
          · rw [iterate_arr_expand_eq md ms seen size limit output trace key idx depth id elems
              rest hs2 hg]
            have h1 := pushArrChildren_markCount f ms elems 0 (depth + 1)
              (addSizeStep ms 2 ⟨size, limit⟩)
            have h2 := pushArrChildren_markCount g ms elems 0 (depth + 1)
              (addSizeStep ms 2 ⟨size, limit⟩)
            simp only [stackMarkCount_append, stackMarkCount_reverse, stackMarkCount_cons_enc,
              stackMarkCount_nil, h1, h2]
            omega
          · have hg2 : (!(addSizeStep ms 2 ⟨size, limit⟩).limit && depthLt depth md) = false := by
              simpa using hg
            rw [iterate_arr_collapse_eq md ms seen size limit output trace key idx depth id elems
              rest hs2 hg2]
            simp only [traceCount_cons]
            omega
        | vobj id fields =>
          simp only [seenHas] at hs2
          cases fields with
          | nil =>
            rw [iterate_obj_empty_eq md ms seen size limit output trace key idx depth id rest hs2]
            exact hinv
          | cons kv fs =>
            by_cases hg : (!(addSizeStep ms 2 ⟨size, limit⟩).limit && depthLt depth md) = true
            · rw [iterate_obj_expand_eq md ms seen size limit output trace key idx depth id
                (kv :: fs) rest hs2 (by simp) hg]
              have h1 := pushObjChildren_markCount f ms (kv :: fs) 0 (depth + 1)
                (addSizeStep ms 2 ⟨size, limit⟩)
              have h2 := pushObjChildren_markCount g ms (kv :: fs) 0 (depth + 1)
                (addSizeStep ms 2 ⟨size, limit⟩)
              simp only [stackMarkCount_append, stackMarkCount_reverse, stackMarkCount_cons_enc,
                stackMarkCount_nil, h1, h2]
              omega
            · have hg2 : (!(addSizeStep ms 2 ⟨size, limit⟩).limit && depthLt depth md) = false := by
                simpa using hg
              rw [iterate_obj_collapse_eq md ms seen size limit output trace key idx depth id
                (kv :: fs) rest hs2 (by simp) hg2]
              simp only [traceCount_cons]
              omega

theorem runFuel_marker_inv (md ms : Option Nat) (f g : Enc → Nat)
    (hbk : f .brackets = g .brackets) (hbc : f .braces = g .braces)
    (ha : f .lbracket + f .rbracket = g .lbracket + g .rbracket)
    (ho : f .lbrace + f .rbrace = g .lbrace + g .rbrace) :
    ∀ n st, traceCount f st.trace + stackMarkCount f st.stack =
        traceCount g st.trace + stackMarkCount g st.stack →
      traceCount f (runFuel md ms n st).trace + stackMarkCount f (runFuel md ms n st).stack =
        traceCount g (runFuel md ms n st).trace +
          stackMarkCount g (runFuel md ms n st).stack := by
  intro n
  induction n with
  | zero => intro st h; exact h
  | succ n ih =>
    intro st h
    by_cases he : st.stack = []
    · rw [runFuel_succ_nil _ _ _ _ he]; exact h
    · rw [runFuel_succ_cons _ _ _ _ he]
      exact ih _ (iterate_marker_inv md ms st f g hbk hbc ha ho h)

/-- C1: for every input value and every maxDepth/maxSize setting, the run is
balanced at the marker level: among the enclosure markers handed to the
renderer (the ghost `trace`), the number of array-open characters equals
the number of array-close characters, and likewise for object markers
(`[]`/`{}` collapse markers contribute one of each). -/
theorem balanced_markers_C1 (object : JSVal) (md ms : Option Nat) :
    traceCount openArrCount (runStack md ms (initState object)).trace =
      traceCount closeArrCount (runStack md ms (initState object)).trace ∧
    traceCount openObjCount (runStack md ms (initState object)).trace =
      traceCount closeObjCount (runStack md ms (initState object)).trace := by
  have hstack := runStack_stack_nil md ms (initState object)
  constructor
  · have h := runFuel_marker_inv md ms openArrCount closeArrCount rfl rfl rfl rfl
      (stackWeight (initState object).stack + 1) (initState object) rfl
    rw [show runFuel md ms (stackWeight (initState object).stack + 1) (initState object) =
      runStack md ms (initState object) from rfl] at h
    rw [hstack] at h
    simpa [stackMarkCount] using h
  · have h := runFuel_marker_inv md ms openObjCount closeObjCount rfl rfl rfl rfl
      (stackWeight (initState object).stack + 1) (initState object) rfl
    rw [show runFuel md ms (stackWeight (initState object).stack + 1) (initState object) =
      runStack md ms (initState object) from rfl] at h
    rw [hstack] at h
    simpa [stackMarkCount] using h

/-- Witness for C10: a key containing a double quote is emitted verbatim. -/
theorem render_key_verbatim_C10_witness :
    (∃ c ∈ ("a\"b" : String).data, c = '"' ∨ c = '\\' ∨ c.toNat < 0x20) ∧
    render (some "a\"b") (.rnum "1") none "" = "\"a\"b\":1" := by
  refine ⟨⟨'"', by decide, Or.inl rfl⟩, ?_⟩
  rw [render_key_verbatim_C10.1 "a\"b" (.rnum "1") none "" ⟨'"', by decide, Or.inl rfl⟩]
  rfl

/-- Parsed JSON values, as produced by a standard JSON parser.  Numbers keep
their lexeme text; objects keep their fields in source order. -/
inductive Json where
  | jnull
  | jbool (b : Bool)
  | jnum (t : String)
  | jstr (s : String)
  | jarr (elems : List Json)
  | jobj (fields : List (String × Json))

mutual
/-- The value a standard JSON parser recovers from the serialized form of a
`JSVal`, up to the intentional stringification of date, error, pattern and
function leaves (spec §8: those are "intentionally stringified"). -/
def toJson : JSVal → Json
  | .vnull => .jnull
  | .vbool b => .jbool b
  | .vnum t => .jnum t
  | .vstr s => .jstr s
  | .vdate _ iso => .jstr iso
  | .verror _ text => .jstr text
  | .vregexp _ text => .jstr text
  | .vfunc name => .jstr ("[function " ++ (if name.isEmpty then "(anonymous)" else name) ++ "]")
  | .varr _ elems => .jarr (toJsonList elems)
  | .vobj _ fields => .jobj (toJsonFields fields)

/-- `toJson` on element lists. -/
def toJsonList : List JSVal → List Json
  | [] => []
  | v :: rest => toJson v :: toJsonList rest

/-- `toJson` on field lists. -/
def toJsonFields : List (String × JSVal) → List (String × Json)
  | [] => []
  | (k, v) :: rest => (k, toJson v) :: toJsonFields rest
end

mutual
/-- Reference JSON printer for `Json` (mirrors what the serializer emits on
the no-limits happy path). -/
def printJson : Json → String
  | .jnull => "null"
  | .jbool true => "true"
  | .jbool false => "false"
  | .jnum t => t
  | .jstr s => "\"" ++ escape s ++ "\""
  | .jarr es => "[" ++ printList es ++ "]"
  | .jobj fs => "\x7b" ++ printFields fs ++ "\x7d"

/-- Comma-joined element list. -/
def printList : List Json → String
  | [] => ""
  | [j] => printJson j
  | j :: rest => printJson j ++ "," ++ printList rest

/-- Comma-joined `"key":value` list (keys verbatim, exactly as the
serializer writes them). -/
def printFields : List (String × Json) → String
  | [] => ""
  | [(k, j)] => "\"" ++ k ++ "\":" ++ printJson j
  | (k, j) :: rest => "\"" ++ k ++ "\":" ++ printJson j ++ "," ++ printFields rest
end

/-- The opening brace character. -/
def lbraceChar : Char := Char.ofNat 123

/-- The closing brace character. -/
def rbraceChar : Char := Char.ofNat 125

/-- Characters a JSON number lexeme may contain. -/
def numChar (c : Char) : Bool :=
  c.isDigit || c = '-' || c = '+' || c = '.' || c = 'e' || c = 'E'

/-- States of the JSON number-literal automaton. -/
inductive NumSt where
  | start
  | sign
  | int0
  | int
  | dot
  | frac
  | exp
  | expSign
  | expDigits
deriving Repr, DecidableEq

/-- One transition of the JSON number automaton
(`-? (0 | [1-9][0-9]*) (. [0-9]+)? ([eE] [+-]? [0-9]+)?`). -/
def numStep : NumSt → Char → Option NumSt
  | .start, c =>
    if c = '-' then some .sign
    else if c = '0' then some .int0
    else if c.isDigit then some .int
    else none
  | .sign, c =>
    if c = '0' then some .int0
    else if c.isDigit then some .int
    else none
  | .int0, c =>
    if c = '.' then some .dot
    else if c = 'e' ∨ c = 'E' then some .exp
    else none
  | .int, c =>
    if c.isDigit then some .int
    else if c = '.' then some .dot
    else if c = 'e' ∨ c = 'E' then some .exp
    else none
  | .dot, c => if c.isDigit then some .frac else none
  | .frac, c =>
    if c.isDigit then some .frac
    else if c = 'e' ∨ c = 'E' then some .exp
    else none
  | .exp, c =>
    if c = '+' ∨ c = '-' then some .expSign
    else if c.isDigit then some .expDigits
    else none
  | .expSign, c => if c.isDigit then some .expDigits else none
  | .expDigits, c => if c.isDigit then some .expDigits else none

/-- Accepting states of the number automaton. -/
def numAccept : NumSt → Bool
  | .int0 => true
  | .int => true
  | .frac => true
  | .expDigits => true
  | _ => false

/-- Run of the number automaton. -/
def runNum : NumSt → List Char → Bool
  | st, [] => numAccept st
  | st, c :: rest =>
    match numStep st c with
    | some st2 => runNum st2 rest
    | none => false

/-- Whether a string is a valid JSON number literal. -/
def isJsonNumberLex (s : String) : Bool :=
  runNum .start s.data

/-- A key the serializer can emit verbatim and a standard parser reads back
unchanged: nonempty, with no double quote, backslash, or control
character. -/
def goodKeyChar (c : Char) : Bool :=
  decide (0x20 ≤ c.toNat) && c ≠ '"' && c ≠ '\\'

/-- A well-formed mapping key. -/
def goodKey (k : String) : Bool :=
  !k.isEmpty && k.data.all goodKeyChar

/-- Value of one hexadecimal digit. -/
def hexVal (c : Char) : Option Nat :=
  if '0' ≤ c ∧ c ≤ '9' then some (c.toNat - 48)
  else if 'a' ≤ c ∧ c ≤ 'f' then some (c.toNat - 87)
  else if 'A' ≤ c ∧ c ≤ 'F' then some (c.toNat - 55)
  else none

/-- Decoding of the named JSON escapes. -/
def escDecode : Char → Option Char
  | '"' => some '"'
  | '\\' => some '\\'
  | '/' => some '/'
  | 'b' => some '\x08'
  | 'f' => some '\x0c'
  | 'n' => some '\n'
  | 'r' => some '\r'
  | 't' => some '\t'
  | _ => none

/-- JSON string-body scanner: reads the content of a quoted string after the
opening quote, decoding the standard escapes, rejecting raw control
characters, and consuming the closing quote. -/
def parseStringBody : List Char → Option (List Char × List Char)
  | [] => none
  | c :: rest =>
    if c = '"' then some ([], rest)
    else if c = '\\' then
      match rest with
      | [] => none
      | e :: rest2 =>
        if e = 'u' then
          match rest2 with
          | h1 :: h2 :: h3 :: h4 :: rest3 =>
            match hexVal h1, hexVal h2, hexVal h3, hexVal h4 with
            | some a, some b, some c3, some d =>
              (parseStringBody rest3).map fun r =>
                (Char.ofNat (((a * 16 + b) * 16 + c3) * 16 + d) :: r.1, r.2)
            | _, _, _, _ => none
          | _ => none
        else
          match escDecode e with
          | some d => (parseStringBody rest2).map fun r => (d :: r.1, r.2)
          | none => none
    else if c.toNat < 0x20 then none
    else (parseStringBody rest).map fun r => (c :: r.1, r.2)

/-- JSON number lexer: take the maximal run of number characters and check
it against the number grammar, keeping the lexeme. -/
def parseNum (cs : List Char) : Option (String × List Char) :=
  let lex := cs.takeWhile numChar
  if isJsonNumberLex (String.mk lex) then some (String.mk lex, cs.dropWhile numChar) else none

mutual
/-- Recursive-descent JSON value parsing (fuel-indexed; the serialized
output contains no whitespace, so none is skipped). -/
def parseVal : Nat → List Char → Option (Json × List Char)
  | 0, _ => none
  | fuel + 1, cs =>
    match cs with
    | 'n' :: 'u' :: 'l' :: 'l' :: rest => some (.jnull, rest)
    | 't' :: 'r' :: 'u' :: 'e' :: rest => some (.jbool true, rest)
    | 'f' :: 'a' :: 'l' :: 's' :: 'e' :: rest => some (.jbool false, rest)
    | '"' :: rest => (parseStringBody rest).map fun r => (.jstr (String.mk r.1), r.2)
    | '[' :: ']' :: rest => some (.jarr [], rest)
    | '[' :: rest => (parseElems fuel rest).map fun r => (.jarr r.1, r.2)
    | c :: rest =>
      if c = lbraceChar then
        match rest with
        | [] => none
        | c2 :: rest2 =>
          if c2 = rbraceChar then some (.jobj [], rest2)
          else (parseFields fuel (c2 :: rest2)).map fun r => (.jobj r.1, r.2)
      else if c.isDigit ∨ c = '-' then
        (parseNum (c :: rest)).map fun r => (.jnum r.1, r.2)
      else none
    | [] => none

/-- One or more comma-separated elements followed by the closing bracket. -/
def parseElems : Nat → List Char → Option (List Json × List Char)
  | 0, _ => none
  | fuel + 1, cs =>
    match parseVal fuel cs with
    | none => none
    | some (j, rest) =>
      match rest with
      | ',' :: rest2 => (parseElems fuel rest2).map fun r => (j :: r.1, r.2)
      | ']' :: rest2 => some ([j], rest2)
      | _ => none

/-- One or more comma-separated `"key":value` fields followed by the closing
brace. -/
def parseFields : Nat → List Char → Option (List (String × Json) × List Char)
  | 0, _ => none
  | fuel + 1, cs =>
    match cs with
    | '"' :: rest =>
      match parseStringBody rest with
      | none => none
      | some (kl, rest2) =>
        match rest2 with
        | ':' :: rest3 =>
          match parseVal fuel rest3 with
          | none => none
          | some (j, rest4) =>
            match rest4 with
            | ',' :: rest5 =>
              (parseFields fuel rest5).map fun r => ((String.mk kl, j) :: r.1, r.2)
            | c :: rest5 =>
              if c = rbraceChar then some ([(String.mk kl, j)], rest5) else none
            | [] => none
        | _ => none
    | _ => none
end

/-- A standard JSON parse of a whole string (enough fuel for any value whose
printed form is the input). -/
def parseJsonTop (s : String) : Option Json :=
  match parseVal (s.length + 1) s.data with
  | some (j, []) => some j
  | _ => none

mutual
/-- Parsed values whose printed form a standard parser reads back exactly:
number lexemes are valid JSON number literals and object keys are
nonempty with no quote/backslash/control characters. -/
def wfJson : Json → Bool
  | .jnum t => isJsonNumberLex t
  | .jarr es => wfJsonList es
  | .jobj fs => wfJsonFields fs
  | _ => true

/-- `wfJson` on element lists. -/
def wfJsonList : List Json → Bool
  | [] => true
  | j :: rest => wfJson j && wfJsonList rest

/-- `wfJson` on field lists. -/
def wfJsonFields : List (String × Json) → Bool
  | [] => true
  | (k, j) :: rest => goodKey k && wfJson j && wfJsonFields rest
end

/-- What may legally follow a printed value for the lexers to stop at the
right place: nothing, or a non-number character (in the printed grammar
always `,`, `]` or `}`). -/
def restOk : List Char → Prop
  | [] => True
  | c :: _ => numChar c = false

theorem string_mk_data (s : String) : String.mk s.data = s := by
  obtain ⟨l⟩ := s
  rfl

theorem hexVal_hexDigit : ∀ k, k < 16 → hexVal (hexDigit k) = some k := by
  decide

theorem parseStringBody_raw (l : List Char) :
    ∀ rest, (∀ c ∈ l, goodKeyChar c = true) →
      parseStringBody (l ++ '"' :: rest) = some (l, rest) := by
  induction l with
  | nil =>
    intro rest h
    rw [List.nil_append, parseStringBody.eq_def]
    simp
  | cons c l2 ih =>
    intro rest h
    have hc := h c (by simp)
    simp only [goodKeyChar, Bool.and_eq_true, decide_eq_true_eq, bne_iff_ne, ne_eq,
      decide_eq_true_eq] at hc
    obtain ⟨⟨h1, h2⟩, h3⟩ := hc
    rw [List.cons_append, parseStringBody.eq_def]
    simp only []
    rw [if_neg h2, if_neg h3, if_neg (by omega)]
    rw [ih rest fun d hd => h d (by simp [hd])]
    rfl

theorem escapeChar_decode (c : Char) (hc : needsEscape c = true) :
    ∀ rest, parseStringBody (escapeChar c ++ rest) =
      (parseStringBody rest).map fun r => (c :: r.1, r.2) := by
  intro rest
  by_cases h1 : c = '\x08'
  · subst h1
    rw [show escapeChar '\x08' = ['\\', 'b'] from rfl, List.cons_append, List.singleton_append,
      parseStringBody.eq_def]
    simp [escDecode]
  by_cases h2 : c = '\t'
  · subst h2
    rw [show escapeChar '\t' = ['\\', 't'] from rfl, List.cons_append, List.singleton_append,
      parseStringBody.eq_def]
    simp [escDecode]
  by_cases h3 : c = '\n'
  · subst h3
    rw [show escapeChar '\n' = ['\\', 'n'] from rfl, List.cons_append, List.singleton_append,
      parseStringBody.eq_def]
    simp [escDecode]
  by_cases h4 : c = '\x0c'
  · subst h4
    rw [show escapeChar '\x0c' = ['\\', 'f'] from rfl, List.cons_append, List.singleton_append,
      parseStringBody.eq_def]
    simp [escDecode]
  by_cases h5 : c = '\r'
  · subst h5
    rw [show escapeChar '\r' = ['\\', 'r'] from rfl, List.cons_append, List.singleton_append,
      parseStringBody.eq_def]
    simp [escDecode]
  by_cases h6 : c = '"'
  · subst h6
    rw [show escapeChar '"' = ['\\', '"'] from rfl, List.cons_append, List.singleton_append,
      parseStringBody.eq_def]
    simp [escDecode]
  by_cases h7 : c = '\\'
  · subst h7
    rw [show escapeChar '\\' = ['\\', '\\'] from rfl, List.cons_append, List.singleton_append,
      parseStringBody.eq_def]
    simp [escDecode]
  -- the \u00XX fallback
  have hlt : c.toNat ≤ 0x1f := by
    simp only [needsEscape, Bool.or_eq_true, decide_eq_true_eq] at hc
    rcases hc with (hc | hc) | hc
    · exact hc
    · exact absurd hc h6
    · exact absurd hc h7
  have e1 : c.toNat / 4096 % 16 = 0 := by
    rw [Nat.div_eq_of_lt (by omega)]
  have e2 : c.toNat / 256 % 16 = 0 := by
    rw [Nat.div_eq_of_lt (by omega)]
  have e4 : c.toNat % 16 < 16 := Nat.mod_lt _ (by norm_num)
  have e5 : c.toNat / 16 < 16 := by
    rw [Nat.div_lt_iff_lt_mul (by norm_num)]
    omega
  have e3 : c.toNat / 16 % 16 = c.toNat / 16 := Nat.mod_eq_of_lt e5
  rw [escapeChar]
  simp only [h1, h2, h3, h4, h5, h6, h7, if_false]
  rw [hex4, e1, e2, e3]
  rw [List.cons_append, List.cons_append, List.cons_append, List.cons_append, List.cons_append,
    List.singleton_append, parseStringBody.eq_def]
  simp only [if_neg (show ¬('\\' = '"') by decide), if_pos rfl]
  rw [hexVal_hexDigit 0 (by norm_num), hexVal_hexDigit (c.toNat / 16) e5,
    hexVal_hexDigit (c.toNat % 16) e4]
  have hv2 : Char.ofNat (c.toNat / 16 * 16 + c.toNat % 16) = c := by
    rw [show c.toNat / 16 * 16 + c.toNat % 16 = c.toNat from by omega, Char.ofNat_toNat]
  simp [hv2]

theorem parseStringBody_escape (l : List Char) :
    ∀ rest, parseStringBody (escapeList l ++ '"' :: rest) = some (l, rest) := by
  induction l with
  | nil =>
    intro rest
    rw [show escapeList [] = ([] : List Char) from rfl, List.nil_append, parseStringBody.eq_def]
    simp
  | cons c l2 ih =>
    intro rest
    by_cases hc : needsEscape c = true
    · simp only [escapeList, hc, if_true, List.append_assoc]
      rw [escapeChar_decode c hc, ih rest]
      rfl
    · have hc2 : needsEscape c = false := by simpa using hc
      simp only [needsEscape, Bool.or_eq_false_iff, decide_eq_false_iff_not] at hc2
      obtain ⟨⟨h1, h2⟩, h3⟩ := hc2
      simp only [escapeList, hc, Bool.false_eq_true, if_false, List.singleton_append,
        List.cons_append, List.nil_append]
      rw [parseStringBody.eq_def]
      simp only []
      rw [if_neg h2, if_neg h3, if_neg (by omega)]
      rw [ih rest]
      rfl

theorem numStep_char {st : NumSt} {c : Char} {st2 : NumSt} (h : numStep st c = some st2) :
    numChar c = true := by
  cases st <;>
    · simp only [numStep] at h
      split_ifs at h with ha hb hc <;>
        first
        | (rcases ha with ha | ha <;> simp [numChar, ha])
        | (rcases hb with hb | hb <;> simp [numChar, hb])
        | (rcases hc with hc | hc <;> simp [numChar, hc])
        | simp [numChar, *]

theorem runNum_chars {l : List Char} :
    ∀ {st}, runNum st l = true → ∀ c ∈ l, numChar c = true := by
  induction l with
  | nil => intro st _ c hc; simp at hc
  | cons a l2 ih =>
    intro st h c hc
    rw [runNum] at h
    cases hst : numStep st a with
    | none => rw [hst] at h; simp at h
    | some st2 =>
      rw [hst] at h
      rcases List.mem_cons.mp hc with hc | hc
      · subst hc; exact numStep_char hst
      · exact ih h c hc

theorem runNum_start_head {l : List Char} (h : runNum .start l = true) :
    ∃ c l0, l = c :: l0 ∧ (c.isDigit = true ∨ c = '-') := by
  cases l with
  | nil => simp [runNum, numAccept] at h
  | cons c l0 =>
    refine ⟨c, l0, rfl, ?_⟩
    rw [runNum] at h
    cases hst : numStep .start c with
    | none => rw [hst] at h; simp at h
    | some st2 =>
      simp only [numStep] at hst
      split_ifs at hst with ha hb hc
      · exact Or.inr ha
      · subst hb; exact Or.inl (by decide)
      · exact Or.inl hc

theorem takeWhile_all_append {p : Char → Bool} (l rest : List Char)
    (hl : ∀ c ∈ l, p c = true) (hr : match rest with | [] => True | c :: _ => p c = false) :
    (l ++ rest).takeWhile p = l ∧ (l ++ rest).dropWhile p = rest := by
  induction l with
  | nil =>
    cases rest with
    | nil => exact ⟨rfl, rfl⟩
    | cons c r2 =>
      simp only at hr
      simp [List.takeWhile, List.dropWhile, hr]
  | cons a l2 ih =>
    have ha := hl a (by simp)
    have hrec := ih fun c hc => hl c (by simp [hc])
    simp [List.takeWhile, List.dropWhile, ha, hrec.1, hrec.2]

theorem escape_data (s : String) : (escape s).data = escapeList s.data := by
  rw [escape_eq_escapeList]

theorem printJson_head (j : Json) (h : wfJson j = true) :
    ∃ c l, (printJson j).data = c :: l ∧ c ≠ ']' := by
  cases j with
  | jnull => exact ⟨'n', ['u', 'l', 'l'], rfl, by decide⟩
  | jbool b =>
    cases b
    · exact ⟨'f', ['a', 'l', 's', 'e'], rfl, by decide⟩
    · exact ⟨'t', ['r', 'u', 'e'], rfl, by decide⟩
  | jnum t =>
    simp only [wfJson, isJsonNumberLex] at h
    obtain ⟨c, l0, he, hc⟩ := runNum_start_head h
    refine ⟨c, l0, he, ?_⟩
    rcases hc with hc | hc
    · intro he2
      subst he2
      simp at hc
    · subst hc
      decide
  | jstr s =>
    refine ⟨'"', (escape s).data ++ ['"'], ?_, by decide⟩
    simp [printJson, String.data_append]
  | jarr es =>
    refine ⟨'[', (printList es).data ++ [']'], ?_, by decide⟩
    simp [printJson, String.data_append]
  | jobj fs =>
    refine ⟨lbraceChar, (printFields fs).data ++ [rbraceChar], ?_, by decide⟩
    simp only [printJson, String.data_append]
    rfl

theorem printJson_len_pos (j : Json) (h : wfJson j = true) : 1 ≤ (printJson j).length := by
  obtain ⟨c, l, he, _⟩ := printJson_head j h
  have : (printJson j).length = (printJson j).data.length := rfl
  rw [this, he]
  simp

theorem printList_head (e : Json) (es : List Json) (h : wfJson e = true) :
    ∃ c l, (printList (e :: es)).data = c :: l ∧ c ≠ ']' := by
  obtain ⟨c, l, he, hc⟩ := printJson_head e h
  cases es with
  | nil => exact ⟨c, l, by rw [show printList [e] = printJson e from rfl, he], hc⟩
  | cons e2 es2 =>
    refine ⟨c, l ++ ',' :: (printList (e2 :: es2)).data, ?_, hc⟩
    rw [show printList (e :: e2 :: es2) = printJson e ++ "," ++ printList (e2 :: es2) from rfl]
    rw [String.data_append, String.data_append, he]
    rw [show ("," : String).data = [','] from rfl]
    simp

theorem printFields_head (f : String × Json) (fs : List (String × Json)) :
    ∃ l, (printFields (f :: fs)).data = '"' :: l := by
  obtain ⟨k, j⟩ := f
  cases fs with
  | nil =>
    refine ⟨k.data ++ '"' :: ':' :: (printJson j).data, ?_⟩
    rw [show printFields [(k, j)] = "\"" ++ k ++ "\":" ++ printJson j from rfl]
    rw [String.data_append, String.data_append, String.data_append]
    rw [show ("\"" : String).data = ['"'] from rfl, show ("\":" : String).data = ['"', ':'] from
      rfl]
    simp
  | cons f2 fs2 =>
    refine ⟨k.data ++ '"' :: ':' ::
      ((printJson j).data ++ ',' :: (printFields (f2 :: fs2)).data), ?_⟩
    rw [show printFields ((k, j) :: f2 :: fs2) =
      "\"" ++ k ++ "\":" ++ printJson j ++ "," ++ printFields (f2 :: fs2) from rfl]
    rw [String.data_append, String.data_append, String.data_append, String.data_append,
      String.data_append]
    rw [show ("\"" : String).data = ['"'] from rfl, show ("\":" : String).data = ['"', ':'] from
      rfl, show ("," : String).data = [','] from rfl]
    simp

theorem parse_print (fuel : Nat) :
    (∀ j rest, wfJson j = true → (printJson j).length + 1 ≤ fuel → restOk rest →
      parseVal fuel ((printJson j).data ++ rest) = some (j, rest)) ∧
    (∀ es rest, wfJsonList es = true → es ≠ [] → (printList es).length + 2 ≤ fuel →
      restOk rest → parseElems fuel ((printList es).data ++ ']' :: rest) = some (es, rest)) ∧
    (∀ fs rest, wfJsonFields fs = true → fs ≠ [] → (printFields fs).length + 2 ≤ fuel →
      restOk rest →
      parseFields fuel ((printFields fs).data ++ rbraceChar :: rest) = some (fs, rest)) := by
  induction fuel using Nat.strong_induction_on with
  | _ fuel ih =>
    cases fuel with
    | zero =>
      refine ⟨fun j rest _ hlen _ => ?_, fun es rest _ _ hlen _ => ?_,
        fun fs rest _ _ hlen _ => ?_⟩ <;> omega
    | succ g =>
      have ihg := ih g (by omega)
      refine ⟨?_, ?_, ?_⟩
      · -- parseVal
        intro j rest hwf hlen hrest
        cases j with
        | jnull => rfl
        | jbool b => cases b <;> rfl
        | jstr s =>
          simp only [printJson, String.data_append, escape_data]
          simp only [List.cons_append, List.append_assoc, List.singleton_append, List.nil_append]
          simp only [parseVal]
          rw [parseStringBody_escape s.data rest]
          simp [string_mk_data]
        | jnum t =>
          simp only [wfJson] at hwf
          have hwf2 : runNum .start t.data = true := hwf
          obtain ⟨c, l0, he, hc⟩ := runNum_start_head hwf2
          have hall : ∀ d ∈ t.data, numChar d = true := runNum_chars hwf2
          simp only [printJson]
          rw [he, List.cons_append, parseVal.eq_def]
          simp only []
          split
          · rename_i heq
            injection heq with h1 h2
            subst h1
            rcases hc with hc | hc <;> exact absurd hc (by decide)
          · rename_i heq
            injection heq with h1 h2
            subst h1
            rcases hc with hc | hc <;> exact absurd hc (by decide)
          · rename_i heq
            injection heq with h1 h2
            subst h1
            rcases hc with hc | hc <;> exact absurd hc (by decide)
          · rename_i heq
            injection heq with h1 h2
            subst h1
            rcases hc with hc | hc <;> exact absurd hc (by decide)
          · rename_i heq
            injection heq with h1 h2
            subst h1
            rcases hc with hc | hc <;> exact absurd hc (by decide)
          · rename_i heq
            injection heq with h1 h2
            subst h1
            rcases hc with hc | hc <;> exact absurd hc (by decide)
          · rename_i heq
            injection heq with h1 h2
            subst h1
            subst h2
            have hlb : ¬(c = lbraceChar) := by
              rcases hc with hc | hc
              · intro h2x
                rw [h2x] at hc
                exact absurd hc (by decide)
              · subst hc; decide
            rw [if_neg hlb, if_pos hc, parseNum]
            have htw := takeWhile_all_append (p := numChar) (c :: l0) rest
              (fun d hd => hall d (he ▸ hd)) hrest
            rw [show c :: (l0 ++ rest) = (c :: l0) ++ rest from rfl, htw.1, htw.2]
            rw [show String.mk (c :: l0) = t from by rw [← he, string_mk_data]]
            rw [if_pos hwf]
            rfl
          · rename_i heq
            exact absurd heq (by simp)
        | jarr es =>
          cases es with
          | nil => rfl
          | cons e es2 =>
            simp only [wfJson, wfJsonList, Bool.and_eq_true] at hwf
            have hL : (printJson (.jarr (e :: es2))).length =
                (printList (e :: es2)).length + 2 := by
              rw [show printJson (.jarr (e :: es2)) = "[" ++ printList (e :: es2) ++ "]" from
                rfl]
              rw [String.length_append, String.length_append]
              rw [show ("[" : String).length = 1 from rfl, show ("]" : String).length = 1 from
                rfl]
              omega
            obtain ⟨c0, l0, hplh, hc0⟩ := printList_head e es2 hwf.1
            rw [show (printJson (.jarr (e :: es2))).data =
              '[' :: ((printList (e :: es2)).data ++ [']']) from rfl]
            rw [List.cons_append, List.append_assoc, List.singleton_append]
            rw [parseVal.eq_def]
            simp only []
            split
            · rename_i heq
              injection heq with h1 h2
              exact absurd h1 (by decide)
            · rename_i heq
              injection heq with h1 h2
              exact absurd h1 (by decide)
            · rename_i heq
              injection heq with h1 h2
              exact absurd h1 (by decide)
            · rename_i heq
              injection heq with h1 h2
              exact absurd h1 (by decide)
            · rename_i heq
              injection heq with h1 h2
              rw [hplh] at h2
              injection h2 with h3 h4
              exact absurd h3 hc0
            · rename_i heq
              injection heq with h1 h2
              subst h2
              rw [ihg.2.1 (e :: es2) rest ?_ (by simp) (by omega) hrest]
              · rfl
              · simp [wfJsonList, hwf.1, hwf.2]
            · rename_i hnb heq
              injection heq with h1 h2
              exact absurd h1.symm hnb
            · rename_i heq
              exact absurd heq (by simp)
        | jobj fs =>
          cases fs with
          | nil => rfl
          | cons f fs2 =>
            simp only [wfJson] at hwf
            have hL : (printJson (.jobj (f :: fs2))).length =
                (printFields (f :: fs2)).length + 2 := by
              rw [show printJson (.jobj (f :: fs2)) =
                "\x7b" ++ printFields (f :: fs2) ++ "\x7d" from rfl]
              rw [String.length_append, String.length_append]
              rw [show ("\x7b" : String).length = 1 from rfl,
                show ("\x7d" : String).length = 1 from rfl]
              omega
            obtain ⟨l0, hpfh⟩ := printFields_head f fs2
            rw [show (printJson (.jobj (f :: fs2))).data =
              lbraceChar :: ((printFields (f :: fs2)).data ++ [rbraceChar]) from rfl]
            rw [List.cons_append, List.append_assoc, List.singleton_append]
            rw [parseVal.eq_def]
            simp only []
            split
            · rename_i heq
              injection heq with h1 h2
              exact absurd h1 (by decide)
            · rename_i heq
              injection heq with h1 h2
              exact absurd h1 (by decide)
            · rename_i heq
              injection heq with h1 h2
              exact absurd h1 (by decide)
            · rename_i heq
              injection heq with h1 h2
              exact absurd h1 (by decide)
            · rename_i heq
              injection heq with h1 h2
              exact absurd h1 (by decide)
            · rename_i heq
              injection heq with h1 h2
              exact absurd h1 (by decide)
            · rename_i hnb heq
              injection heq with h1 h2
              subst h1
              subst h2
              rw [if_pos (show lbraceChar = lbraceChar from rfl)]
              rw [hpfh, List.cons_append]
              simp only []
              rw [if_neg (show ¬('"' = rbraceChar) from by decide)]
              rw [← List.cons_append, ← hpfh]
              rw [ihg.2.2 (f :: fs2) rest hwf (by simp) (by omega) hrest]
              rfl
            · rename_i heq
              exact absurd heq (by simp)
      · -- parseElems
        intro es rest hwf hne hlen hrest
        cases es with
        | nil => exact absurd rfl hne
        | cons e es2 =>
          simp only [wfJsonList, Bool.and_eq_true] at hwf
          simp only [parseElems]
          cases es2 with
          | nil =>
            have hre : restOk (']' :: rest) := by
              show numChar ']' = false
              decide
            rw [show printList [e] = printJson e from rfl]
            rw [ihg.1 e (']' :: rest) hwf.1 (by
              rw [show printList [e] = printJson e from rfl] at hlen
              omega) hre]
            rfl
          | cons e2 es3 =>
            have hL : (printList (e :: e2 :: es3)).length =
                (printJson e).length + 1 + (printList (e2 :: es3)).length := by
              rw [show printList (e :: e2 :: es3) =
                printJson e ++ "," ++ printList (e2 :: es3) from rfl]
              rw [String.length_append, String.length_append]
              rw [show ("," : String).length = 1 from rfl]
            have hrc : restOk (',' :: ((printList (e2 :: es3)).data ++ ']' :: rest)) := by
              show numChar ',' = false
              decide
            rw [show (printList (e :: e2 :: es3)).data =
              (printJson e).data ++ (',' :: (printList (e2 :: es3)).data) from by
              rw [show printList (e :: e2 :: es3) =
                printJson e ++ "," ++ printList (e2 :: es3) from rfl]
              rw [String.data_append, String.data_append]
              rw [show ("," : String).data = [','] from rfl]
              simp]
            rw [List.append_assoc, List.cons_append]
            rw [ihg.1 e (',' :: ((printList (e2 :: es3)).data ++ ']' :: rest)) hwf.1
              (by omega) hrc]
            simp only []
            rw [ihg.2.1 (e2 :: es3) rest hwf.2 (by simp) (by omega) hrest]
            rfl
      · -- parseFields
        intro fs rest hwf hne hlen hrest
        cases fs with
        | nil => exact absurd rfl hne
        | cons f fs2 =>
          obtain ⟨k, j⟩ := f
          simp only [wfJsonFields, Bool.and_eq_true] at hwf
          obtain ⟨⟨hk, hwfj⟩, hwfr⟩ := hwf
          have hkchars : ∀ c ∈ k.data, goodKeyChar c = true := by
            simp only [goodKey, Bool.and_eq_true, List.all_eq_true] at hk
            exact fun c hc => hk.2 c hc
          simp only [parseFields]
          cases fs2 with
          | nil =>
            have hL : (printFields [(k, j)]).length =
                k.length + 3 + (printJson j).length := by
              rw [show printFields [(k, j)] = "\"" ++ k ++ "\":" ++ printJson j from rfl]
              rw [String.length_append, String.length_append, String.length_append]
              rw [show ("\"" : String).length = 1 from rfl,
                show ("\":" : String).length = 2 from rfl]
              omega
            have hrb : restOk (rbraceChar :: rest) := by
              show numChar rbraceChar = false
              decide
            rw [show (printFields [(k, j)]).data =
              '"' :: (k.data ++ '"' :: ':' :: (printJson j).data) from by
              rw [show printFields [(k, j)] = "\"" ++ k ++ "\":" ++ printJson j from rfl]
              rw [String.data_append, String.data_append, String.data_append]
              rw [show ("\"" : String).data = ['"'] from rfl,
                show ("\":" : String).data = ['"', ':'] from rfl]
              simp]
            rw [List.cons_append, List.append_assoc, List.cons_append, List.cons_append]
            simp only []
            rw [parseStringBody_raw k.data _ hkchars]
            simp only []
            rw [ihg.1 j (rbraceChar :: rest) hwfj (by omega) hrb]
            simp only []
            rw [show rbraceChar = '\x7d' from rfl]
            rw [string_mk_data]
            simp
          | cons f2 fs3 =>
            have hL : (printFields ((k, j) :: f2 :: fs3)).length =
                k.length + 3 + (printJson j).length + 1 +
                  (printFields (f2 :: fs3)).length := by
              rw [show printFields ((k, j) :: f2 :: fs3) =
                "\"" ++ k ++ "\":" ++ printJson j ++ "," ++ printFields (f2 :: fs3) from rfl]
              rw [String.length_append, String.length_append, String.length_append,
                String.length_append, String.length_append]
              rw [show ("\"" : String).length = 1 from rfl,
                show ("\":" : String).length = 2 from rfl,
                show ("," : String).length = 1 from rfl]
              omega
            have hrc : restOk (',' :: ((printFields (f2 :: fs3)).data ++ rbraceChar :: rest)) := by
              show numChar ',' = false
              decide
            rw [show (printFields ((k, j) :: f2 :: fs3)).data =
              '"' :: (k.data ++ '"' :: ':' ::
                ((printJson j).data ++ ',' :: (printFields (f2 :: fs3)).data)) from by
              rw [show printFields ((k, j) :: f2 :: fs3) =
                "\"" ++ k ++ "\":" ++ printJson j ++ "," ++ printFields (f2 :: fs3) from rfl]
              rw [String.data_append, String.data_append, String.data_append,
                String.data_append, String.data_append]
              rw [show ("\"" : String).data = ['"'] from rfl,
                show ("\":" : String).data = ['"', ':'] from rfl,
                show ("," : String).data = [','] from rfl]
              simp]
            rw [List.cons_append, List.append_assoc, List.cons_append, List.cons_append]
            simp only []
            rw [parseStringBody_raw k.data _ hkchars]
            simp only []
            rw [List.append_assoc, List.cons_append]
            rw [ihg.1 j (',' :: ((printFields (f2 :: fs3)).data ++ rbraceChar :: rest)) hwfj
              (by omega) hrc]
            simp only []
            rw [ihg.2.2 (f2 :: fs3) rest hwfr (by simp) (by omega) hrest]
            rw [string_mk_data]
            rfl

theorem str_empty_append (s : String) : "" ++ s = s := by
  obtain ⟨l⟩ := s
  rfl

theorem str_append_empty (s : String) : s ++ "" = s := by
  obtain ⟨l⟩ := s
  show String.mk (l ++ []) = String.mk l
  rw [List.append_nil]

mutual
/-- The allocation identities occurring in a value (the objects the Identity
Guard would record), in first-visit order. -/
def vids : JSVal → List Nat
  | .vdate id _ => [id]
  | .verror id _ => [id]
  | .vregexp id _ => [id]
  | .varr id es => id :: vidsList es
  | .vobj id fs => id :: vidsFields fs
  | _ => []

/-- `vids` over an element list. -/
def vidsList : List JSVal → List Nat
  | [] => []
  | v :: rest => vids v ++ vidsList rest

/-- `vids` over a field list. -/
def vidsFields : List (String × JSVal) → List Nat
  | [] => []
  | (_, v) :: rest => vids v ++ vidsFields rest
end

mutual
/-- Inputs on which the serializer's happy path writes standard JSON: every
number text is a valid JSON number literal, every mapping is nonempty, and
every key is nonempty with no quote, backslash, or control character. -/
def wfB : JSVal → Bool
  | .vnum t => isJsonNumberLex t
  | .varr _ es => wfBList es
  | .vobj _ fs => !fs.isEmpty && wfBFields fs
  | _ => true

/-- `wfB` over an element list. -/
def wfBList : List JSVal → Bool
  | [] => true
  | v :: rest => wfB v && wfBList rest

/-- `wfB` over a field list. -/
def wfBFields : List (String × JSVal) → Bool
  | [] => true
  | (k, v) :: rest => goodKey k && wfB v && wfBFields rest
end

/-- The `"key":` prefix `render` writes for a truthy key. -/
def keyText : Option String → String
  | some k => if !k.isEmpty then "\"" ++ k ++ "\":" else ""
  | none => ""

theorem render_keyText (key : Option String) (r : RArg) (idx : Option Nat) (out : String) :
    render key r idx out =
      (if idxTruthy idx then "," else "") ++ keyText key ++ rargText r ++ out := by
  cases key <;> rfl

/-- The output fragment one frame contributes on the no-limit happy path. -/
def fragOf (f : Frame) : String :=
  (if idxTruthy f.index then "," else "") ++ keyText f.key ++
    (match f.payload with
     | .val v => printJson (toJson v)
     | .enc e => getEnclosure e)

/-- Concatenated fragments of a frame block, in processing order (the head
frame is processed first and its fragment therefore ends up rightmost,
since `render` prepends). -/
def fragsOf : List Frame → String
  | [] => ""
  | f :: rest => fragsOf rest ++ fragOf f

/-- Concatenated fragments in forward list order. -/
def fragsFwd : List Frame → String
  | [] => ""
  | f :: rest => fragOf f ++ fragsFwd rest

/-- Identities of one frame's payload. -/
def frameVids (f : Frame) : List Nat :=
  match f.payload with
  | .val v => vids v
  | .enc _ => []

/-- Identities of a frame block. -/
def framesVids : List Frame → List Nat
  | [] => []
  | f :: rest => frameVids f ++ framesVids rest

/-- Frame-block well-formedness: value payloads satisfy `wfB` and keyed value
frames carry nonempty keys (enclosure frames are unrestricted). -/
def framesOk : List Frame → Bool
  | [] => true
  | f :: rest =>
    (match f.payload with
     | .val v => wfB v
     | .enc _ => true) && framesOk rest

/-- The child frames the array loop pushes (no size limit: all of them). -/
def arrFrames (elems : List JSVal) (i depth : Nat) : List Frame :=
  match elems with
  | [] => []
  | v :: rest => ⟨none, .val v, some i, depth⟩ :: arrFrames rest (i + 1) depth

/-- The child frames the object loop pushes (no size limit: all of them). -/
def objFrames (fields : List (String × JSVal)) (i depth : Nat) : List Frame :=
  match fields with
  | [] => []
  | (k, v) :: rest => ⟨some k, .val v, some i, depth⟩ :: objFrames rest (i + 1) depth

/-- `,elem,elem,…` — the non-first elements of a printed array. -/
def commaList : List Json → String
  | [] => ""
  | j :: rest => "," ++ printJson j ++ commaList rest

/-- `,"key":value,…` — the non-first fields of a printed object. -/
def commaFields : List (String × Json) → String
  | [] => ""
  | (k, j) :: rest => "," ++ ("\"" ++ k ++ "\":") ++ printJson j ++ commaFields rest

theorem printList_commaList (j : Json) (js : List Json) :
    printList (j :: js) = printJson j ++ commaList js := by
  induction js generalizing j with
  | nil => rw [show printList [j] = printJson j from rfl, commaList, str_append_empty]
  | cons j2 js2 ih =>
    rw [show printList (j :: j2 :: js2) = printJson j ++ "," ++ printList (j2 :: js2) from rfl]
    rw [ih j2, commaList]
    simp [String.append_assoc]

theorem printFields_commaFields (k : String) (j : Json) (fs : List (String × Json)) :
    printFields ((k, j) :: fs) = ("\"" ++ k ++ "\":") ++ printJson j ++ commaFields fs := by
  induction fs generalizing k j with
  | nil =>
    rw [show printFields [(k, j)] = "\"" ++ k ++ "\":" ++ printJson j from rfl]
    rw [commaFields, str_append_empty]
  | cons kj2 fs2 ih =>
    obtain ⟨k2, j2⟩ := kj2
    rw [show printFields ((k, j) :: (k2, j2) :: fs2) =
      "\"" ++ k ++ "\":" ++ printJson j ++ "," ++ printFields ((k2, j2) :: fs2) from rfl]
    rw [ih k2 j2, commaFields]
    simp [String.append_assoc]

theorem checkLimit_none (sz : SzSt) : checkLimit none sz = sz := by
  simp [checkLimit, sizeGt]

theorem addSizeStep_none (k : Nat) (sz : SzSt) :
    addSizeStep none k sz = ⟨sz.size.addNum k, sz.limit⟩ := by
  simp [addSizeStep, checkLimit_none]

theorem measureStep_none (v : JSVal) (sz : SzSt) :
    measureStep none v sz = ⟨measureSize v sz.size, sz.limit⟩ := by
  simp [measureStep, checkLimit_none]

theorem pushArrChildren_none (elems : List JSVal) :
    ∀ i depth sz, (pushArrChildren none elems i depth sz).1.limit = sz.limit ∧
      (sz.limit = false → (pushArrChildren none elems i depth sz).2 = arrFrames elems i depth) := by
  induction elems with
  | nil => intro i depth sz; exact ⟨rfl, fun _ => rfl⟩
  | cons v rest ih =>
    intro i depth sz
    have hm := measureStep_none v sz
    have h := ih (i + 1) depth (measureStep none v sz)
    constructor
    · rw [pushArrChildren]
      simp only []
      rw [h.1, hm]
    · intro hf
      rw [pushArrChildren]
      simp only []
      rw [h.2 (by rw [hm]; exact hf)]
      rw [if_neg (by rw [hm]; simp [hf])]
      rw [arrFrames, List.singleton_append]

theorem pushObjChildren_none (fields : List (String × JSVal)) :
    ∀ i depth sz, (pushObjChildren none fields i depth sz).1.limit = sz.limit ∧
      (sz.limit = false →
        (pushObjChildren none fields i depth sz).2 = objFrames fields i depth) := by
  induction fields with
  | nil => intro i depth sz; exact ⟨rfl, fun _ => rfl⟩
  | cons kv rest ih =>
    obtain ⟨k, v⟩ := kv
    intro i depth sz
    have ha := addSizeStep_none (k.length + 3) sz
    have hlim1 : (addSizeStep none (k.length + 3) sz).limit = sz.limit := by rw [ha]
    have hsz2 : (if (addSizeStep none (k.length + 3) sz).limit then
        addSizeStep none (k.length + 3) sz
      else measureStep none v (addSizeStep none (k.length + 3) sz)).limit = sz.limit := by
      split
    
      · exact hlim1
      · rw [measureStep_none]
        exact hlim1
    have h := ih (i + 1) depth (if (addSizeStep none (k.length + 3) sz).limit then
        addSizeStep none (k.length + 3) sz
      else measureStep none v (addSizeStep none (k.length + 3) sz))
    constructor
    · rw [pushObjChildren]
      simp only []
      rw [h.1, hsz2]
    · intro hf
      rw [pushObjChildren]
      simp only []
      rw [h.2 (by rw [hsz2]; exact hf)]
      rw [if_neg (by rw [hsz2]; simp [hf])]
      rw [objFrames, List.singleton_append]

theorem fragsOf_append (a b : List Frame) :
    fragsOf (a ++ b) = fragsOf b ++ fragsOf a := by
  induction a with
  | nil => rw [List.nil_append, fragsOf, str_append_empty]
  | cons f a2 ih =>
    rw [List.cons_append, fragsOf, ih, fragsOf, String.append_assoc]

theorem fragsOf_reverse (l : List Frame) : fragsOf l.reverse = fragsFwd l := by
  induction l with
  | nil => rfl
  | cons f l2 ih =>
    rw [List.reverse_cons, fragsOf_append, ih, fragsOf, fragsOf, str_empty_append, fragsFwd]

theorem framesVids_append (a b : List Frame) :
    framesVids (a ++ b) = framesVids a ++ framesVids b := by
  induction a with
  | nil => rfl
  | cons f a2 ih => rw [List.cons_append, framesVids, ih, framesVids, List.append_assoc]

theorem framesVids_reverse_perm (l : List Frame) :
    (framesVids l.reverse).Perm (framesVids l) := by
  induction l with
  | nil => exact List.Perm.refl _
  | cons f l2 ih =>
    rw [List.reverse_cons, framesVids_append, framesVids]
    rw [show framesVids ([] : List Frame) = [] from rfl, List.append_nil]
    rw [show framesVids (f :: l2) = frameVids f ++ framesVids l2 from rfl]
    exact (ih.append_right (frameVids f)).trans List.perm_append_comm

theorem framesOk_append (a b : List Frame) :
    framesOk (a ++ b) = (framesOk a && framesOk b) := by
  induction a with
  | nil => rw [List.nil_append, framesOk, Bool.true_and]
  | cons f a2 ih => rw [List.cons_append, framesOk, ih, framesOk, Bool.and_assoc]

theorem framesOk_reverse (l : List Frame) : framesOk l.reverse = framesOk l := by
  induction l with
  | nil => rfl
  | cons f l2 ih =>
    rw [List.reverse_cons, framesOk_append, ih, framesOk]
    rw [show framesOk ([] : List Frame) = true from rfl, Bool.and_true]
    rw [show framesOk (f :: l2) = ((match f.payload with
      | .val v => wfB v
      | .enc _ => true) && framesOk l2) from rfl]
    rw [Bool.and_comm]

theorem framesVids_arrFrames (elems : List JSVal) :
    ∀ i depth, framesVids (arrFrames elems i depth) = vidsList elems := by
  induction elems with
  | nil => intro i depth; rfl
  | cons v rest ih =>
    intro i depth
    rw [arrFrames, framesVids, ih (i + 1) depth, vidsList]
    rfl

theorem framesVids_objFrames (fields : List (String × JSVal)) :
    ∀ i depth, framesVids (objFrames fields i depth) = vidsFields fields := by
  induction fields with
  | nil => intro i depth; rfl
  | cons kv rest ih =>
    obtain ⟨k, v⟩ := kv
    intro i depth
    rw [objFrames, framesVids, ih (i + 1) depth, vidsFields]
    rfl

theorem framesOk_arrFrames (elems : List JSVal) :
    ∀ i depth, framesOk (arrFrames elems i depth) = wfBList elems := by
  induction elems with
  | nil => intro i depth; rfl
  | cons v rest ih =>
    intro i depth
    rw [arrFrames, framesOk, ih (i + 1) depth, wfBList]

theorem framesOk_objFrames (fields : List (String × JSVal)) :
    ∀ i depth, wfBFields fields = true → framesOk (objFrames fields i depth) = true := by
  induction fields with
  | nil => intro i depth _; rfl
  | cons kv rest ih =>
    obtain ⟨k, v⟩ := kv
    intro i depth hwf
    simp only [wfBFields, Bool.and_eq_true] at hwf
    rw [objFrames, framesOk, ih (i + 1) depth hwf.2]
    simp [hwf.1.2]

theorem fragsFwd_arrFrames_pos (elems : List JSVal) :
    ∀ i depth, 1 ≤ i → fragsFwd (arrFrames elems i depth) = commaList (toJsonList elems) := by
  induction elems with
  | nil => intro i depth _; rfl
  | cons v rest ih =>
    intro i depth hi
    rw [arrFrames, fragsFwd, ih (i + 1) depth (by omega), toJsonList, commaList]
    rw [show fragOf ⟨none, .val v, some i, depth⟩ =
      (if idxTruthy (some i) then "," else "") ++ keyText none ++ printJson (toJson v) from rfl]
    rw [show idxTruthy (some i) = true from by simp [idxTruthy]; omega, if_pos rfl]
    rw [show keyText none = "" from rfl, str_append_empty, String.append_assoc]

theorem fragsFwd_arrFrames_zero (v : JSVal) (vs : List JSVal) (depth : Nat) :
    fragsFwd (arrFrames (v :: vs) 0 depth) =
      printJson (toJson v) ++ commaList (toJsonList vs) := by
  rw [arrFrames, fragsFwd, fragsFwd_arrFrames_pos vs 1 depth (by omega)]
  rw [show fragOf ⟨none, .val v, some 0, depth⟩ =
    (if idxTruthy (some 0) then "," else "") ++ keyText none ++ printJson (toJson v) from rfl]
  rw [show idxTruthy (some 0) = false from by simp [idxTruthy], if_neg (by simp)]
  rw [show keyText none = "" from rfl, str_append_empty, str_empty_append]

theorem fragsFwd_objFrames_pos (fields : List (String × JSVal)) :
    ∀ i depth, 1 ≤ i → wfBFields fields = true →
      fragsFwd (objFrames fields i depth) = commaFields (toJsonFields fields) := by
  induction fields with
  | nil => intro i depth _ _; rfl
  | cons kv rest ih =>
    obtain ⟨k, v⟩ := kv
    intro i depth hi hwf
    simp only [wfBFields, Bool.and_eq_true] at hwf
    have hk : k.isEmpty = false := by
      have := hwf.1.1
      simp only [goodKey, Bool.and_eq_true] at this
      simpa using this.1
    rw [objFrames, fragsFwd, ih (i + 1) depth (by omega) hwf.2, toJsonFields, commaFields]
    rw [show fragOf ⟨some k, .val v, some i, depth⟩ =
      (if idxTruthy (some i) then "," else "") ++ keyText (some k) ++
        printJson (toJson v) from rfl]
    rw [show idxTruthy (some i) = true from by simp [idxTruthy]; omega, if_pos rfl]
    rw [show keyText (some k) = if !k.isEmpty then "\"" ++ k ++ "\":" else "" from rfl]
    rw [hk]
    rw [show (!false) = true from rfl, if_pos rfl]

theorem fragsFwd_objFrames_zero (k : String) (v : JSVal) (fs : List (String × JSVal))
    (depth : Nat) (hwf : wfBFields ((k, v) :: fs) = true) :
    fragsFwd (objFrames ((k, v) :: fs) 0 depth) =
      ("\"" ++ k ++ "\":") ++ printJson (toJson v) ++ commaFields (toJsonFields fs) := by
  simp only [wfBFields, Bool.and_eq_true] at hwf
  have hk : k.isEmpty = false := by
    have := hwf.1.1
    simp only [goodKey, Bool.and_eq_true] at this
    simpa using this.1
  rw [objFrames, fragsFwd, fragsFwd_objFrames_pos fs 1 depth (by omega) hwf.2]
  rw [show fragOf ⟨some k, .val v, some 0, depth⟩ =
    (if idxTruthy (some 0) then "," else "") ++ keyText (some k) ++
      printJson (toJson v) from rfl]
  rw [show idxTruthy (some 0) = false from by simp [idxTruthy], if_neg (by simp)]
  rw [show keyText (some k) = if !k.isEmpty then "\"" ++ k ++ "\":" else "" from rfl]
  rw [hk]
  rw [show (!false) = true from rfl, if_pos rfl]
  rw [str_empty_append, String.append_assoc]

theorem stackWeight_arrFrames (elems : List JSVal) :
    ∀ i depth, stackWeight (arrFrames elems i depth) = weightList elems := by
  induction elems with
  | nil => intro i depth; rfl
  | cons v rest ih =>
    intro i depth
    rw [arrFrames, stackWeight_cons, ih (i + 1) depth, weightList]
    rfl

theorem stackWeight_objFrames (fields : List (String × JSVal)) :
    ∀ i depth, stackWeight (objFrames fields i depth) = weightFields fields := by
  induction fields with
  | nil => intro i depth; rfl
  | cons kv rest ih =>
    obtain ⟨k, v⟩ := kv
    intro i depth
    rw [objFrames, stackWeight_cons, ih (i + 1) depth, weightFields]
    rfl

theorem runStack_cons2 (md ms : Option Nat) (seen : List Nat) (size : SizeCtr) (limit : Bool)
    (out : String) (fr : Frame) (rest : List Frame) (tr : List Enc) :
    runStack md ms ⟨seen, size, limit, out, fr :: rest, tr⟩ =
      runStack md ms (iterateStack md ms ⟨seen, size, limit, out, fr :: rest, tr⟩) :=
  runStack_cons md ms _ (by simp)

set_option maxHeartbeats 1000000 in
theorem runBlock : ∀ W : Nat, ∀ fs : List Frame, stackWeight fs ≤ W → framesOk fs = true →
    ∀ seen size out rest tr, (framesVids fs).Nodup → (∀ x ∈ framesVids fs, x ∉ seen) →
    ∃ seen2 size2 tr2,
      (∀ x, x ∈ seen2 ↔ x ∈ framesVids fs ∨ x ∈ seen) ∧
      runStack none none ⟨seen, size, false, out, fs ++ rest, tr⟩ =
        runStack none none ⟨seen2, size2, false, fragsOf fs ++ out, rest, tr2⟩ := by
  intro W
  induction W using Nat.strong_induction_on with
  | _ W ih =>
    intro fs hw hok seen size out rest tr hnd hdisj
    cases fs with
    | nil =>
      refine ⟨seen, size, tr, fun x => by simp [framesVids], ?_⟩
      rw [List.nil_append, show fragsOf [] = "" from rfl, str_empty_append]
    | cons f fs' =>
      obtain ⟨key, pl, idx, depth⟩ := f
      rw [framesOk, Bool.and_eq_true] at hok
      obtain ⟨hok1, hok2⟩ := hok
      rw [stackWeight_cons] at hw
      cases pl with
      | enc e =>
        simp only [] at hok1
        have hfw : frameWeight ⟨key, .enc e, idx, depth⟩ = 1 := rfl
        rw [hfw] at hw
        have hfv : framesVids (⟨key, .enc e, idx, depth⟩ :: fs') = framesVids fs' := by
          rw [framesVids, show frameVids ⟨key, .enc e, idx, depth⟩ = [] from rfl,
            List.nil_append]
        rw [hfv] at hnd hdisj ⊢
        rw [List.cons_append, runStack_cons2, iterate_enc_eq]
        simp only [addSizeStep_none]
        by_cases hidx : idxTruthy idx = true
        · rw [if_pos hidx]
          obtain ⟨seen2, size2, tr2, hmem, heq⟩ := ih (W - 1) (by omega) fs' (by omega) hok2
            seen (size.addNum 1) (render key (.enc e) idx out) rest (e :: tr) hnd hdisj
          refine ⟨seen2, size2, tr2, hmem, ?_⟩
          rw [heq, fragsOf, String.append_assoc,
            show fragOf ⟨key, .enc e, idx, depth⟩ ++ out = render key (.enc e) idx out from by
              rw [render_keyText]; rfl]
        · rw [if_neg hidx]
          obtain ⟨seen2, size2, tr2, hmem, heq⟩ := ih (W - 1) (by omega) fs' (by omega) hok2
            seen size (render key (.enc e) idx out) rest (e :: tr) hnd hdisj
          refine ⟨seen2, size2, tr2, hmem, ?_⟩
          rw [heq, fragsOf, String.append_assoc,
            show fragOf ⟨key, .enc e, idx, depth⟩ ++ out = render key (.enc e) idx out from by
              rw [render_keyText]; rfl]
      | val v =>
        simp only [] at hok1
        have hfw : frameWeight ⟨key, .val v, idx, depth⟩ = weight v := rfl
        rw [hfw] at hw
        have hwp := weight_pos v
        cases v with
        | vnull =>
          have hfv : framesVids (⟨key, .val .vnull, idx, depth⟩ :: fs') = framesVids fs' := rfl
          rw [hfv] at hnd hdisj ⊢
          rw [show weight .vnull = 1 from rfl] at hw
          rw [List.cons_append, runStack_cons2, iterate_null_eq]
          simp only [addSizeStep_none]
          by_cases hidx : idxTruthy idx = true
          · rw [if_pos hidx]
            obtain ⟨seen2, size2, tr2, hmem, heq⟩ := ih (W - 1) (by omega) fs' (by omega) hok2
              seen (size.addNum 1) (render key .rnull idx out) rest tr hnd hdisj
            refine ⟨seen2, size2, tr2, hmem, ?_⟩
            rw [heq, fragsOf, String.append_assoc,
              show fragOf ⟨key, .val .vnull, idx, depth⟩ ++ out =
                render key .rnull idx out from by rw [render_keyText]; rfl]
          · rw [if_neg hidx]
            obtain ⟨seen2, size2, tr2, hmem, heq⟩ := ih (W - 1) (by omega) fs' (by omega) hok2
              seen size (render key .rnull idx out) rest tr hnd hdisj
            refine ⟨seen2, size2, tr2, hmem, ?_⟩
            rw [heq, fragsOf, String.append_assoc,
              show fragOf ⟨key, .val .vnull, idx, depth⟩ ++ out =
                render key .rnull idx out from by rw [render_keyText]; rfl]
        | vdate id iso =>
          have hfv : framesVids (⟨key, .val (.vdate id iso), idx, depth⟩ :: fs') =
              id :: framesVids fs' := rfl
          rw [hfv] at hnd hdisj ⊢
          rw [show weight (.vdate id iso) = 1 from rfl] at hw
          obtain ⟨hid_nin, hnd'⟩ := List.nodup_cons.mp hnd
          have hid : seen.contains id = false := by
            have : id ∉ seen := hdisj id (List.mem_cons_self id _)
            simpa using this
          have hdisj' : ∀ x ∈ framesVids fs', x ∉ id :: seen := by
            intro x hx
            simp only [List.mem_cons, not_or]
            exact ⟨fun he => hid_nin (he ▸ hx), hdisj x (List.mem_cons_of_mem _ hx)⟩
          rw [List.cons_append, runStack_cons2,
            iterate_date_eq none none seen size false out tr key idx depth id iso
              (fs' ++ rest) hid]
          obtain ⟨seen2, size2, tr2, hmem, heq⟩ := ih (W - 1) (by omega) fs' (by omega) hok2
            (id :: seen) size (render key (.rstr iso) idx out) rest tr hnd' hdisj'
          refine ⟨seen2, size2, tr2, ?_, ?_⟩
          · intro x
            rw [hmem x]
            simp only [List.mem_cons]
            tauto
          · rw [heq, fragsOf, String.append_assoc,
              show fragOf ⟨key, .val (.vdate id iso), idx, depth⟩ ++ out =
                render key (.rstr iso) idx out from by rw [render_keyText]; rfl]
        | vbool b =>
          have hfv : framesVids (⟨key, .val (.vbool b), idx, depth⟩ :: fs') = framesVids fs' :=
            rfl
          rw [hfv] at hnd hdisj ⊢
          rw [show weight (.vbool b) = 1 from rfl] at hw
          rw [List.cons_append, runStack_cons2, iterate_bool_eq]
          simp only [addSizeStep_none]
          by_cases hidx : idxTruthy idx = true
          · rw [if_pos hidx]
            obtain ⟨seen2, size2, tr2, hmem, heq⟩ := ih (W - 1) (by omega) fs' (by omega) hok2
              seen (size.addNum 1) (render key (.rbool b) idx out) rest tr hnd hdisj
            refine ⟨seen2, size2, tr2, hmem, ?_⟩
            rw [heq, fragsOf, String.append_assoc,
              show fragOf ⟨key, .val (.vbool b), idx, depth⟩ ++ out =
                render key (.rbool b) idx out from by
                  rw [render_keyText]; cases b <;> rfl]
          · rw [if_neg hidx]
            obtain ⟨seen2, size2, tr2, hmem, heq⟩ := ih (W - 1) (by omega) fs' (by omega) hok2
              seen size (render key (.rbool b) idx out) rest tr hnd hdisj
            refine ⟨seen2, size2, tr2, hmem, ?_⟩
            rw [heq, fragsOf, String.append_assoc,
              show fragOf ⟨key, .val (.vbool b), idx, depth⟩ ++ out =
                render key (.rbool b) idx out from by
                  rw [render_keyText]; cases b <;> rfl]
        | vnum t =>
          have hfv : framesVids (⟨key, .val (.vnum t), idx, depth⟩ :: fs') = framesVids fs' :=
            rfl
          rw [hfv] at hnd hdisj ⊢
          rw [show weight (.vnum t) = 1 from rfl] at hw
          rw [List.cons_append, runStack_cons2, iterate_num_eq]
          simp only [addSizeStep_none]
          by_cases hidx : idxTruthy idx = true
          · rw [if_pos hidx]
            obtain ⟨seen2, size2, tr2, hmem, heq⟩ := ih (W - 1) (by omega) fs' (by omega) hok2
              seen (size.addNum 1) (render key (.rnum t) idx out) rest tr hnd hdisj
            refine ⟨seen2, size2, tr2, hmem, ?_⟩
            rw [heq, fragsOf, String.append_assoc,
              show fragOf ⟨key, .val (.vnum t), idx, depth⟩ ++ out =
                render key (.rnum t) idx out from by rw [render_keyText]; rfl]
          · rw [if_neg hidx]
            obtain ⟨seen2, size2, tr2, hmem, heq⟩ := ih (W - 1) (by omega) fs' (by omega) hok2
              seen size (render key (.rnum t) idx out) rest tr hnd hdisj
            refine ⟨seen2, size2, tr2, hmem, ?_⟩
            rw [heq, fragsOf, String.append_assoc,
              show fragOf ⟨key, .val (.vnum t), idx, depth⟩ ++ out =
                render key (.rnum t) idx out from by rw [render_keyText]; rfl]
        | vstr s =>
          have hfv : framesVids (⟨key, .val (.vstr s), idx, depth⟩ :: fs') = framesVids fs' :=
            rfl
          rw [hfv] at hnd hdisj ⊢
          rw [show weight (.vstr s) = 1 from rfl] at hw
          rw [List.cons_append, runStack_cons2, iterate_str_eq]
          simp only [addSizeStep_none]
          by_cases hidx : idxTruthy idx = true
          · rw [if_pos hidx]
            obtain ⟨seen2, size2, tr2, hmem, heq⟩ := ih (W - 1) (by omega) fs' (by omega) hok2
              seen (size.addNum 1) (render key (.rstr s) idx out) rest tr hnd hdisj
            refine ⟨seen2, size2, tr2, hmem, ?_⟩
            rw [heq, fragsOf, String.append_assoc,
              show fragOf ⟨key, .val (.vstr s), idx, depth⟩ ++ out =
                render key (.rstr s) idx out from by rw [render_keyText]; rfl]
          · rw [if_neg hidx]
            obtain ⟨seen2, size2, tr2, hmem, heq⟩ := ih (W - 1) (by omega) fs' (by omega) hok2
              seen size (render key (.rstr s) idx out) rest tr hnd hdisj
            refine ⟨seen2, size2, tr2, hmem, ?_⟩
            rw [heq, fragsOf, String.append_assoc,
              show fragOf ⟨key, .val (.vstr s), idx, depth⟩ ++ out =
                render key (.rstr s) idx out from by rw [render_keyText]; rfl]
        | vfunc name =>
          have hfv : framesVids (⟨key, .val (.vfunc name), idx, depth⟩ :: fs') =
              framesVids fs' := rfl
          rw [hfv] at hnd hdisj ⊢
          rw [show weight (.vfunc name) = 1 from rfl] at hw
          rw [List.cons_append, runStack_cons2, iterate_func_eq]
          obtain ⟨seen2, size2, tr2, hmem, heq⟩ := ih (W - 1) (by omega) fs' (by omega) hok2
            seen size (render key
              (.rstr ("[function " ++ (if name.isEmpty then "(anonymous)" else name) ++ "]"))
              idx out) rest tr hnd hdisj
          refine ⟨seen2, size2, tr2, hmem, ?_⟩
          rw [heq, fragsOf,
            String.append_assoc (fragsOf fs') (fragOf ⟨key, .val (.vfunc name), idx, depth⟩) out,
            show fragOf ⟨key, .val (.vfunc name), idx, depth⟩ ++ out =
              render key
                (.rstr ("[function " ++ (if name.isEmpty then "(anonymous)" else name) ++ "]"))
                idx out from by rw [render_keyText]; rfl]
        | verror id text =>
          have hfv : framesVids (⟨key, .val (.verror id text), idx, depth⟩ :: fs') =
              id :: framesVids fs' := rfl
          rw [hfv] at hnd hdisj ⊢
          rw [show weight (.verror id text) = 1 from rfl] at hw
          obtain ⟨hid_nin, hnd2⟩ := List.nodup_cons.mp hnd
          have hid : seen.contains id = false := by
            have h0 : id ∉ seen := hdisj id (List.mem_cons_self id _)
            simpa using h0
          have hdisj2 : ∀ x ∈ framesVids fs', x ∉ id :: seen := by
            intro x hx
            simp only [List.mem_cons, not_or]
            exact ⟨fun he => hid_nin (he ▸ hx), hdisj x (List.mem_cons_of_mem _ hx)⟩
          rw [List.cons_append, runStack_cons2, iterate_error_eq none none seen size false out tr key idx depth id text (fs' ++ rest) hid]
          obtain ⟨seen2, size2, tr2, hmem, heq⟩ := ih (W - 1) (by omega) fs' (by omega) hok2
            (id :: seen) size (render key (.rstr text) idx out) rest tr hnd2 hdisj2
          refine ⟨seen2, size2, tr2, ?_, ?_⟩
          · intro x
            rw [hmem x]
            simp only [List.mem_cons]
            tauto
          · rw [heq, fragsOf, String.append_assoc,
              show fragOf ⟨key, .val (.verror id text), idx, depth⟩ ++ out =
                render key (.rstr text) idx out from by rw [render_keyText]; rfl]
        | vregexp id text =>
          have hfv : framesVids (⟨key, .val (.vregexp id text), idx, depth⟩ :: fs') =
              id :: framesVids fs' := rfl
          rw [hfv] at hnd hdisj ⊢
          rw [show weight (.vregexp id text) = 1 from rfl] at hw
          obtain ⟨hid_nin, hnd2⟩ := List.nodup_cons.mp hnd
          have hid : seen.contains id = false := by
            have h0 : id ∉ seen := hdisj id (List.mem_cons_self id _)
            simpa using h0
          have hdisj2 : ∀ x ∈ framesVids fs', x ∉ id :: seen := by
            intro x hx
            simp only [List.mem_cons, not_or]
            exact ⟨fun he => hid_nin (he ▸ hx), hdisj x (List.mem_cons_of_mem _ hx)⟩
          rw [List.cons_append, runStack_cons2, iterate_regexp_eq none none seen size false out tr key idx depth id text (fs' ++ rest) hid]
          obtain ⟨seen2, size2, tr2, hmem, heq⟩ := ih (W - 1) (by omega) fs' (by omega) hok2
            (id :: seen) size (render key (.rstr text) idx out) rest tr hnd2 hdisj2
          refine ⟨seen2, size2, tr2, ?_, ?_⟩
          · intro x
            rw [hmem x]
            simp only [List.mem_cons]
            tauto
          · rw [heq, fragsOf, String.append_assoc,
              show fragOf ⟨key, .val (.vregexp id text), idx, depth⟩ ++ out =
                render key (.rstr text) idx out from by rw [render_keyText]; rfl]
        | varr id elems =>
          rw [show wfB (.varr id elems) = wfBList elems from rfl] at hok1
          have hfv : framesVids (⟨key, .val (.varr id elems), idx, depth⟩ :: fs') =
              id :: (vidsList elems ++ framesVids fs') := by
            rw [framesVids, show frameVids ⟨key, .val (.varr id elems), idx, depth⟩ =
              id :: vidsList elems from rfl, List.cons_append]
          rw [hfv] at hnd hdisj ⊢
          rw [show weight (.varr id elems) = 3 + weightList elems from rfl] at hw
          obtain ⟨hid_nin, hnd2⟩ := List.nodup_cons.mp hnd
          have hid : seen.contains id = false := by
            have h0 : id ∉ seen := hdisj id (List.mem_cons_self id _)
            simpa using h0
          have hg : (!(addSizeStep none 2 ⟨size, false⟩).limit && depthLt depth none) = true := by
            rw [addSizeStep_none]
            rfl
          rw [List.cons_append, runStack_cons2,
            iterate_arr_expand_eq none none seen size false out tr key idx depth id elems
              (fs' ++ rest) hid hg]
          have hpl := pushArrChildren_none elems 0 (depth + 1) (addSizeStep none 2 ⟨size, false⟩)
          have hlim : (pushArrChildren none elems 0 (depth + 1)
              (addSizeStep none 2 ⟨size, false⟩)).1.limit = false := by
            rw [hpl.1, addSizeStep_none]
          have hfrm : (pushArrChildren none elems 0 (depth + 1)
              (addSizeStep none 2 ⟨size, false⟩)).2 = arrFrames elems 0 (depth + 1) := by
            refine hpl.2 ?_
            rw [addSizeStep_none]
          rw [hlim, hfrm]
          have hstack :
              ((⟨key, .enc .lbracket, idx, depth⟩ : Frame) :: arrFrames elems 0 (depth + 1) ++
                [(⟨none, .enc .rbracket, none, depth⟩ : Frame)]).reverse ++ (fs' ++ rest) =
              ((⟨none, .enc .rbracket, none, depth⟩ : Frame) ::
                ((arrFrames elems 0 (depth + 1)).reverse ++
                  (⟨key, .enc .lbracket, idx, depth⟩ : Frame) :: fs')) ++ rest := by
            simp
          rw [hstack]
          have hwNew : stackWeight ((⟨none, .enc .rbracket, none, depth⟩ : Frame) ::
              ((arrFrames elems 0 (depth + 1)).reverse ++
                (⟨key, .enc .lbracket, idx, depth⟩ : Frame) :: fs')) ≤ W - 1 := by
            rw [stackWeight_cons, stackWeight_append, stackWeight_reverse,
              stackWeight_arrFrames, stackWeight_cons]
            rw [show frameWeight ⟨none, .enc .rbracket, none, depth⟩ = 1 from rfl,
              show frameWeight ⟨key, .enc .lbracket, idx, depth⟩ = 1 from rfl]
            omega
          have hokNew : framesOk ((⟨none, .enc .rbracket, none, depth⟩ : Frame) ::
              ((arrFrames elems 0 (depth + 1)).reverse ++
                (⟨key, .enc .lbracket, idx, depth⟩ : Frame) :: fs')) = true := by
            simp [framesOk, framesOk_append, framesOk_reverse, framesOk_arrFrames, hok1, hok2]
          have hperm : (framesVids ((⟨none, .enc .rbracket, none, depth⟩ : Frame) ::
              ((arrFrames elems 0 (depth + 1)).reverse ++
                (⟨key, .enc .lbracket, idx, depth⟩ : Frame) :: fs'))).Perm
              (vidsList elems ++ framesVids fs') := by
            rw [framesVids, show frameVids ⟨none, .enc .rbracket, none, depth⟩ = [] from rfl,
              List.nil_append, framesVids_append, framesVids,
              show frameVids ⟨key, .enc .lbracket, idx, depth⟩ = [] from rfl, List.nil_append]
            have h1 : framesVids (arrFrames elems 0 (depth + 1)) = vidsList elems :=
              framesVids_arrFrames elems 0 (depth + 1)
            exact (h1 ▸ framesVids_reverse_perm (arrFrames elems 0 (depth + 1))).append_right _
          have hdisj2 : ∀ x ∈ framesVids ((⟨none, .enc .rbracket, none, depth⟩ : Frame) ::
              ((arrFrames elems 0 (depth + 1)).reverse ++
                (⟨key, .enc .lbracket, idx, depth⟩ : Frame) :: fs')), x ∉ id :: seen := by
            intro x hx
            have hxb : x ∈ vidsList elems ++ framesVids fs' := hperm.mem_iff.mp hx
            simp only [List.mem_cons, not_or]
            exact ⟨fun he => hid_nin (he ▸ hxb), hdisj x (List.mem_cons_of_mem _ hxb)⟩
          obtain ⟨seen2, size2, tr2, hmem, heq⟩ := ih (W - 1) (by omega) _ hwNew hokNew
            (id :: seen)
            (pushArrChildren none elems 0 (depth + 1) (addSizeStep none 2 ⟨size, false⟩)).1.size
            out rest tr (hperm.symm.nodup hnd2) hdisj2
          have hfragEq : fragsOf ((⟨none, .enc .rbracket, none, depth⟩ : Frame) ::
              ((arrFrames elems 0 (depth + 1)).reverse ++
                (⟨key, .enc .lbracket, idx, depth⟩ : Frame) :: fs')) =
              fragsOf (⟨key, .val (.varr id elems), idx, depth⟩ :: fs') := by
            rw [fragsOf, fragsOf_append, fragsOf_reverse, fragsOf, fragsOf]
            rw [show fragOf ⟨none, .enc .rbracket, none, depth⟩ = "]" from rfl]
            rw [show fragOf ⟨key, .enc .lbracket, idx, depth⟩ =
              (if idxTruthy idx then "," else "") ++ keyText key ++ "[" from rfl]
            rw [show fragOf ⟨key, .val (.varr id elems), idx, depth⟩ =
              (if idxTruthy idx then "," else "") ++ keyText key ++
                ("[" ++ printList (toJsonList elems) ++ "]") from rfl]
            cases elems with
            | nil =>
              rw [show fragsFwd (arrFrames [] 0 (depth + 1)) = "" from rfl]
              rw [show printList (toJsonList []) = "" from rfl]
              simp [String.append_assoc, str_append_empty, str_empty_append]
            | cons v vs =>
              rw [fragsFwd_arrFrames_zero v vs (depth + 1)]
              rw [show toJsonList (v :: vs) = toJson v :: toJsonList vs from rfl]
              rw [printList_commaList]
              simp [String.append_assoc, str_append_empty, str_empty_append]
          refine ⟨seen2, size2, tr2, ?_, ?_⟩
          · intro x
            rw [hmem x]
            rw [hperm.mem_iff]
            simp only [List.mem_cons, List.mem_append]
            tauto
          · rw [heq, hfragEq]
        | vobj id fields =>
          rw [show wfB (.vobj id fields) = (!fields.isEmpty && wfBFields fields) from rfl,
            Bool.and_eq_true] at hok1
          have hne : fields ≠ [] := by
            intro he
            rw [he] at hok1
            simp at hok1
          have hwfF : wfBFields fields = true := hok1.2
          have hfv : framesVids (⟨key, .val (.vobj id fields), idx, depth⟩ :: fs') =
              id :: (vidsFields fields ++ framesVids fs') := by
            rw [framesVids, show frameVids ⟨key, .val (.vobj id fields), idx, depth⟩ =
              id :: vidsFields fields from rfl, List.cons_append]
          rw [hfv] at hnd hdisj ⊢
          rw [show weight (.vobj id fields) = 3 + weightFields fields from rfl] at hw
          obtain ⟨hid_nin, hnd2⟩ := List.nodup_cons.mp hnd
          have hid : seen.contains id = false := by
            have h0 : id ∉ seen := hdisj id (List.mem_cons_self id _)
            simpa using h0
          have hg : (!(addSizeStep none 2 ⟨size, false⟩).limit && depthLt depth none) = true := by
            rw [addSizeStep_none]
            rfl
          rw [List.cons_append, runStack_cons2,
            iterate_obj_expand_eq none none seen size false out tr key idx depth id fields
              (fs' ++ rest) hid hne hg]
          have hpl := pushObjChildren_none fields 0 (depth + 1) (addSizeStep none 2 ⟨size, false⟩)
          have hlim : (pushObjChildren none fields 0 (depth + 1)
              (addSizeStep none 2 ⟨size, false⟩)).1.limit = false := by
            rw [hpl.1, addSizeStep_none]
          have hfrm : (pushObjChildren none fields 0 (depth + 1)
              (addSizeStep none 2 ⟨size, false⟩)).2 = objFrames fields 0 (depth + 1) := by
            refine hpl.2 ?_
            rw [addSizeStep_none]
          rw [hlim, hfrm]
          have hstack :
              ((⟨key, .enc .lbrace, idx, depth⟩ : Frame) :: objFrames fields 0 (depth + 1) ++
                [(⟨none, .enc .rbrace, none, depth⟩ : Frame)]).reverse ++ (fs' ++ rest) =
              ((⟨none, .enc .rbrace, none, depth⟩ : Frame) ::
                ((objFrames fields 0 (depth + 1)).reverse ++
                  (⟨key, .enc .lbrace, idx, depth⟩ : Frame) :: fs')) ++ rest := by
            simp
          rw [hstack]
          have hwNew : stackWeight ((⟨none, .enc .rbrace, none, depth⟩ : Frame) ::
              ((objFrames fields 0 (depth + 1)).reverse ++
                (⟨key, .enc .lbrace, idx, depth⟩ : Frame) :: fs')) ≤ W - 1 := by
            rw [stackWeight_cons, stackWeight_append, stackWeight_reverse,
              stackWeight_objFrames, stackWeight_cons]
            rw [show frameWeight ⟨none, .enc .rbrace, none, depth⟩ = 1 from rfl,
              show frameWeight ⟨key, .enc .lbrace, idx, depth⟩ = 1 from rfl]
            omega
          have hokNew : framesOk ((⟨none, .enc .rbrace, none, depth⟩ : Frame) ::
              ((objFrames fields 0 (depth + 1)).reverse ++
                (⟨key, .enc .lbrace, idx, depth⟩ : Frame) :: fs')) = true := by
            simp [framesOk, framesOk_append, framesOk_reverse,
              framesOk_objFrames fields 0 (depth + 1) hwfF, hok2]
          have hperm : (framesVids ((⟨none, .enc .rbrace, none, depth⟩ : Frame) ::
              ((objFrames fields 0 (depth + 1)).reverse ++
                (⟨key, .enc .lbrace, idx, depth⟩ : Frame) :: fs'))).Perm
              (vidsFields fields ++ framesVids fs') := by
            rw [framesVids, show frameVids ⟨none, .enc .rbrace, none, depth⟩ = [] from rfl,
              List.nil_append, framesVids_append, framesVids,
              show frameVids ⟨key, .enc .lbrace, idx, depth⟩ = [] from rfl, List.nil_append]
            have h1 : framesVids (objFrames fields 0 (depth + 1)) = vidsFields fields :=
              framesVids_objFrames fields 0 (depth + 1)
            exact (h1 ▸ framesVids_reverse_perm (objFrames fields 0 (depth + 1))).append_right _
          have hdisj2 : ∀ x ∈ framesVids ((⟨none, .enc .rbrace, none, depth⟩ : Frame) ::
              ((objFrames fields 0 (depth + 1)).reverse ++
                (⟨key, .enc .lbrace, idx, depth⟩ : Frame) :: fs')), x ∉ id :: seen := by
            intro x hx
            have hxb : x ∈ vidsFields fields ++ framesVids fs' := hperm.mem_iff.mp hx
            simp only [List.mem_cons, not_or]
            exact ⟨fun he => hid_nin (he ▸ hxb), hdisj x (List.mem_cons_of_mem _ hxb)⟩
          obtain ⟨seen2, size2, tr2, hmem, heq⟩ := ih (W - 1) (by omega) _ hwNew hokNew
            (id :: seen)
            (pushObjChildren none fields 0 (depth + 1) (addSizeStep none 2 ⟨size, false⟩)).1.size
            out rest tr (hperm.symm.nodup hnd2) hdisj2
          have hfragEq : fragsOf ((⟨none, .enc .rbrace, none, depth⟩ : Frame) ::
              ((objFrames fields 0 (depth + 1)).reverse ++
                (⟨key, .enc .lbrace, idx, depth⟩ : Frame) :: fs')) =
              fragsOf (⟨key, .val (.vobj id fields), idx, depth⟩ :: fs') := by
            rw [fragsOf, fragsOf_append, fragsOf_reverse, fragsOf, fragsOf]
            rw [show fragOf ⟨none, .enc .rbrace, none, depth⟩ = "\x7d" from rfl]
            rw [show fragOf ⟨key, .enc .lbrace, idx, depth⟩ =
              (if idxTruthy idx then "," else "") ++ keyText key ++ "\x7b" from rfl]
            rw [show fragOf ⟨key, .val (.vobj id fields), idx, depth⟩ =
              (if idxTruthy idx then "," else "") ++ keyText key ++
                ("\x7b" ++ printFields (toJsonFields fields) ++ "\x7d") from rfl]
            cases fields with
            | nil => exact absurd rfl hne
            | cons kv fs2 =>
              obtain ⟨k, v⟩ := kv
              rw [fragsFwd_objFrames_zero k v fs2 (depth + 1) hwfF]
              rw [show toJsonFields ((k, v) :: fs2) = (k, toJson v) :: toJsonFields fs2 from rfl]
              rw [printFields_commaFields]
              simp [String.append_assoc, str_append_empty, str_empty_append]
          refine ⟨seen2, size2, tr2, ?_, ?_⟩
          · intro x
            rw [hmem x]
            rw [hperm.mem_iff]
            simp only [List.mem_cons, List.mem_append]
            tauto
          · rw [heq, hfragEq]

theorem wfB_toJson : ∀ W v, weight v ≤ W → wfB v = true → wfJson (toJson v) = true := by
  intro W
  induction W using Nat.strong_induction_on with
  | _ W ih =>
    intro v hwv hwf
    cases v with
    | vnull => rfl
    | vbool b => rfl
    | vnum t => exact hwf
    | vstr s => rfl
    | vdate id iso => rfl
    | verror id text => rfl
    | vregexp id text => rfl
    | vfunc name => rfl
    | varr id es =>
      rw [show weight (.varr id es) = 3 + weightList es from rfl] at hwv
      rw [show wfB (.varr id es) = wfBList es from rfl] at hwf
      rw [show toJson (.varr id es) = .jarr (toJsonList es) from rfl,
        show wfJson (.jarr (toJsonList es)) = wfJsonList (toJsonList es) from rfl]
      have hlist : ∀ l, weightList l ≤ weightList es → wfBList l = true →
          wfJsonList (toJsonList l) = true := by
        intro l
        induction l with
        | nil => intro _ _; rfl
        | cons a r ihl =>
          intro hle hwfl
          rw [show weightList (a :: r) = weight a + weightList r from rfl] at hle
          rw [wfBList, Bool.and_eq_true] at hwfl
          have hwa := weight_pos a
          rw [show toJsonList (a :: r) = toJson a :: toJsonList r from rfl,
            wfJsonList, Bool.and_eq_true]
          exact ⟨ih (W - 1) (by omega) a (by omega) hwfl.1, ihl (by omega) hwfl.2⟩
      exact hlist es (le_refl _) hwf
    | vobj id fs =>
      rw [show weight (.vobj id fs) = 3 + weightFields fs from rfl] at hwv
      rw [show wfB (.vobj id fs) = (!fs.isEmpty && wfBFields fs) from rfl,
        Bool.and_eq_true] at hwf
      rw [show toJson (.vobj id fs) = .jobj (toJsonFields fs) from rfl,
        show wfJson (.jobj (toJsonFields fs)) = wfJsonFields (toJsonFields fs) from rfl]
      have hlist : ∀ l, weightFields l ≤ weightFields fs → wfBFields l = true →
          wfJsonFields (toJsonFields l) = true := by
        intro l
        induction l with
        | nil => intro _ _; rfl
        | cons kv r ihl =>
          obtain ⟨k, a⟩ := kv
          intro hle hwfl
          rw [show weightFields ((k, a) :: r) = weight a + weightFields r from rfl] at hle
          rw [wfBFields, Bool.and_eq_true, Bool.and_eq_true] at hwfl
          have hwa := weight_pos a
          rw [show toJsonFields ((k, a) :: r) = (k, toJson a) :: toJsonFields r from rfl,
            wfJsonFields, Bool.and_eq_true, Bool.and_eq_true]
          exact ⟨⟨hwfl.1.1, ih (W - 1) (by omega) a (by omega) hwfl.1.2⟩, ihl (by omega) hwfl.2⟩
      exact hlist fs (le_refl _) hwf.2

/-- On any input whose numbers are valid JSON literals, whose mappings are
nonempty with well-formed keys, and whose object identities are all
distinct (no cycles and no shared references), the no-limits serializer
produces exactly the reference JSON printing of the structural image
`toJson`. -/
theorem smartSerialize_printJson (v : JSVal) (hwf : wfB v = true) (hnd : (vids v).Nodup) :
    smartSerialize v none none = printJson (toJson v) := by
  have hok : framesOk [⟨none, .val v, none, 0⟩] = true := by
    simp [framesOk, hwf]
  have hfv : framesVids [⟨none, .val v, none, 0⟩] = vids v := by
    rw [framesVids, show frameVids ⟨none, .val v, none, 0⟩ = vids v from rfl]
    rw [show framesVids ([] : List Frame) = [] from rfl, List.append_nil]
  obtain ⟨seen2, size2, tr2, hmem, heq⟩ := runBlock (stackWeight [⟨none, .val v, none, 0⟩])
    [⟨none, .val v, none, 0⟩] (le_refl _) hok [] (.num 0) "" [] []
    (by rw [hfv]; exact hnd) (by rw [hfv]; intro x hx; simp)
  rw [smartSerialize, show initState v =
    ⟨[], .num 0, false, "", [⟨none, .val v, none, 0⟩], []⟩ from rfl]
  rw [show ([⟨none, .val v, none, 0⟩] : List Frame) = [⟨none, .val v, none, 0⟩] ++ [] from by
    rw [List.append_nil]]
  rw [heq]
  rw [runStack_nil none none _ rfl]
  have hout : fragsOf [(⟨none, .val v, none, 0⟩ : Frame)] ++ "" = printJson (toJson v) := by
    rw [str_append_empty]
    rw [show fragsOf [(⟨none, .val v, none, 0⟩ : Frame)] =
      "" ++ fragOf ⟨none, .val v, none, 0⟩ from rfl, str_empty_append]
    rw [show fragOf ⟨none, .val v, none, 0⟩ =
      (if idxTruthy none then "," else "") ++ keyText none ++ printJson (toJson v) from rfl]
    rw [show (if idxTruthy none then "," else "") = "" from rfl, str_empty_append]
    rw [show keyText none = "" from rfl, str_empty_append]
  rw [hout]

/-- A reference printing parses back to the printed value. -/
theorem parseJsonTop_printJson (j : Json) (hwf : wfJson j = true) :
    parseJsonTop (printJson j) = some j := by
  rw [parseJsonTop]
  have h := (parse_print ((printJson j).length + 1)).1 j [] hwf (le_refl _) trivial
  rw [List.append_nil] at h
  rw [h]

/-- C2: As stated the claim is false — the serializer drops empty mappings
entirely (an acyclic `\x7b\x7d` input serializes to the empty string, which no
JSON parser accepts), repeated (shared) references are replaced by the
circular-reference token even in acyclic inputs, and verbatim-written keys
or non-JSON number texts can break the syntax.  Corrected statement: for
every input whose object identities are pairwise distinct (acyclic and
sharing-free), whose mappings are all nonempty, whose keys are nonempty
and free of quote/backslash/control characters, and whose number texts
are valid JSON number literals, serializing with
`maxDepth = maxSize = Infinity` and parsing the result with a standard
JSON parser yields exactly the structural image `toJson` of the input
(dates, errors, patterns and functions stringified). -/
theorem json_round_trip_C2 (v : JSVal) (hwf : wfB v = true) (hnd : (vids v).Nodup) :
    parseJsonTop (smartSerialize v none none) = some (toJson v) := by
  rw [smartSerialize_printJson v hwf hnd]
  exact parseJsonTop_printJson (toJson v) (wfB_toJson (weight v) v (le_refl _) hwf)

/-- C2 counterexample to the spec's wording: the empty mapping is acyclic,
yet its no-limits serialization is the empty string, which a standard
JSON parser rejects — no parse result can equal the input. -/
theorem json_round_trip_C2_counterexample :
    smartSerialize (.vobj 0 []) none none = "" ∧ parseJsonTop "" = none :=
  ⟨rfl, rfl⟩

/-- C2 witness: a concrete well-formed input on which the corrected round
trip holds. -/
theorem json_round_trip_C2_witness :
    wfB (.vobj 1 [("a", .varr 2 [.vnum "1", .vstr "x"])]) = true ∧
    (vids (.vobj 1 [("a", .varr 2 [.vnum "1", .vstr "x"])])).Nodup ∧
    parseJsonTop (smartSerialize (.vobj 1 [("a", .varr 2 [.vnum "1", .vstr "x"])]) none none) =
      some (toJson (.vobj 1 [("a", .varr 2 [.vnum "1", .vstr "x"])])) :=
  ⟨by decide, by decide, json_round_trip_C2 _ (by decide) (by decide)⟩
